import Mathlib

set_option maxHeartbeats 1000000
set_option autoImplicit false

namespace Leaf

/-- Reserved id range handed out by the store (leaf.go, type Segment).
`Base` is the exclusive lower bound (the last id granted before this segment
began), `Max` the inclusive upper bound, `Step` the reservation size and
`Cursor` the last id issued (starts at `Base`, mutated by atomic adds). -/
structure Segment where
  Base : Int
  Max : Int
  Step : Int
  Cursor : Int
  deriving DecidableEq

/-- Remaining mirrors Segment.Remaining: how many ids are left. -/
def Remaining (s : Segment) : Int :=
  s.Max - s.Cursor

/-- State of the backing `leaf_alloc` row for one biz tag (LeafDAO's database)
together with a failure script: entry `some e` makes the next
FetchNextSegment call fail with error `e` (transaction rolled back, row
unchanged), entry `none` — or an exhausted script — lets it succeed.
`calls` counts store round trips. -/
structure LeafDB where
  maxId : Int
  step : Int
  fails : List (Option String)
  calls : Nat
  deriving DecidableEq

/-- Result of one store round trip. -/
inductive FetchResult where
  | ok : Segment → FetchResult
  | fail : String → FetchResult
  deriving DecidableEq

/-- FetchNextSegment mirrors LeafDAO.FetchNextSegment: atomically advance
`max_id` by `step` and return the chunk `(maxId, maxId + step]` as a Segment
whose Cursor starts at Base (`Segment{Base: maxId-step, Max: maxId, Step:
step, Cursor: maxId-step}` built from the post-update `max_id`). -/
def FetchNextSegment (db : LeafDB) : FetchResult × LeafDB :=
  match db.fails with
  | some e :: rest =>
      (FetchResult.fail e, { db with fails := rest, calls := db.calls + 1 })
  | none :: rest =>
      let m := db.maxId + db.step
      (FetchResult.ok { Base := m - db.step, Max := m, Step := db.step, Cursor := m - db.step },
        { db with maxId := m, fails := rest, calls := db.calls + 1 })
  | [] =>
      let m := db.maxId + db.step
      (FetchResult.ok { Base := m - db.step, Max := m, Step := db.step, Cursor := m - db.step },
        { db with maxId := m, calls := db.calls + 1 })

/-- One background prefetch task (the goroutine spawned by
CheckAndLoadNext): `spawned` before its store round trip, `fetched r` after
it (with `r = none` when the fetch failed). The fetch (outside the mutex)
and the install into `next` (under the mutex, then the deferred reset of
the loading flag) are separate steps, exactly as in the goroutine body. -/
inductive BgTask where
  | spawned : BgTask
  | fetched : Option Segment → BgTask
  deriving DecidableEq

/-- DoubleBuffer state (leaf.go, type DoubleBuffer).  `bgTasks` is the list
of prefetch goroutines currently in flight (`isLoading` is the atomic flag
they are guarded by). -/
structure DoubleBuffer where
  current : Option Segment
  next : Option Segment
  nextReady : Bool
  isLoading : Bool
  bgTasks : List BgTask
  deriving DecidableEq

/-- NewDoubleBuffer constructs an empty buffer (fields zero-valued). -/
def NewDoubleBuffer : DoubleBuffer :=
  { current := none, next := none, nextReady := false, isLoading := false, bgTasks := [] }

/-- CheckAndLoadNext mirrors DoubleBuffer.CheckAndLoadNext: early return if
the next buffer is ready or a load is in progress; early return while
`Remaining() > threshold`; otherwise compare-and-swap the loading flag from
0 to 1 and spawn the prefetch goroutine.  The threshold
`int64(float64(Step) * 0.2)` is embedded as the exact `Step / 5`, which
agrees with the float computation at the step sizes considered here
(e.g. step 100 gives 20). -/
def CheckAndLoadNext (b : DoubleBuffer) : DoubleBuffer :=
  match b.current with
  | none => b
  | some cur =>
      if b.nextReady || b.isLoading then b
      else if Remaining cur > cur.Step / 5 then b
      else if b.isLoading then b
      else { b with isLoading := true, bgTasks := b.bgTasks ++ [BgTask.spawned] }

/-- NextID mirrors DoubleBuffer.NextID: nil check, fast-path atomic
increment (with asynchronous prefetch trigger), then under the mutex a
second increment (double check), promotion of the ready next segment, and
finally the synchronous fallback fetch.  Go's `(int64, error)` return is
embedded as `Int × Option String` (0 with `some e` on every error path). -/
def NextID (b : DoubleBuffer) (db : LeafDB) : (Int × Option String) × DoubleBuffer × LeafDB :=
  match b.current with
  | none => ((0, some ("segment not initialized")), b, db)
  | some cur =>
      let id := cur.Cursor + 1
      let cur1 : Segment := { cur with Cursor := id }
      let b1 : DoubleBuffer := { b with current := some cur1 }
      if id ≤ cur1.Max then
        ((id, none), CheckAndLoadNext b1, db)
      else
        let id2 := cur1.Cursor + 1
        let cur2 : Segment := { cur1 with Cursor := id2 }
        let b2 : DoubleBuffer := { b1 with current := some cur2 }
        if id2 ≤ cur2.Max then
          ((id2, none), b2, db)
        else
          match b2.nextReady, b2.next with
          | true, some nseg =>
              let ncur : Segment := { nseg with Cursor := nseg.Cursor + 1 }
              ((nseg.Cursor + 1, none),
                { b2 with current := some ncur, next := none, nextReady := false }, db)
          | _, _ =>
              match FetchNextSegment db with
              | (FetchResult.fail e, db1) => ((0, some e), b2, db1)
              | (FetchResult.ok seg, db1) =>
                  let scur : Segment := { seg with Cursor := seg.Cursor + 1 }
                  ((seg.Cursor + 1, none),
                    { b2 with current := some scur, next := none, nextReady := false }, db1)

/-- Init mirrors DoubleBuffer.Init: one synchronous fetch populating
`current`; the error, if any, is returned unchanged. -/
def Init (b : DoubleBuffer) (db : LeafDB) : Option String × DoubleBuffer × LeafDB :=
  match FetchNextSegment db with
  | (FetchResult.fail e, db1) => (some e, b, db1)
  | (FetchResult.ok seg, db1) => (none, { b with current := some seg }, db1)

/-- One step of the background prefetch goroutine's store round trip
(leaf.go line 149, executed outside the mutex). -/
def bgFetchStep (b : DoubleBuffer) (db : LeafDB) : DoubleBuffer × LeafDB :=
  match b.bgTasks with
  | BgTask.spawned :: rest =>
      match FetchNextSegment db with
      | (FetchResult.fail _, db1) => ({ b with bgTasks := BgTask.fetched none :: rest }, db1)
      | (FetchResult.ok seg, db1) => ({ b with bgTasks := BgTask.fetched (some seg) :: rest }, db1)
  | _ => (b, db)

/-- Completion of a background prefetch goroutine: on success install the
fetched segment into `next` under the mutex and mark it ready; in every
case the deferred `atomic.StoreInt32(&db.isLoading, 0)` resets the loading
flag and the goroutine ends. -/
def bgInstallStep (b : DoubleBuffer) : DoubleBuffer :=
  match b.bgTasks with
  | BgTask.fetched (some seg) :: rest =>
      { b with next := some seg, nextReady := true, isLoading := false, bgTasks := rest }
  | BgTask.fetched none :: rest =>
      { b with isLoading := false, bgTasks := rest }
  | _ => b

/-- Events of one DoubleBuffer's execution: a caller invoking NextID, a
background goroutine performing its store fetch, and a background goroutine
installing its result and terminating. -/
inductive Ev where
  | callNext : Ev
  | bgFetch : Ev
  | bgInstall : Ev
  deriving DecidableEq

/-- A run's state: the buffer, the store, and the ids successfully returned
so far, in return order. -/
structure RunState where
  buf : DoubleBuffer
  db : LeafDB
  issued : List Int
  deriving DecidableEq

/-- Execute one event. -/
def stepRun (r : RunState) : Ev → RunState
  | Ev.callNext =>
      match NextID r.buf r.db with
      | ((id, none), b, d) => { buf := b, db := d, issued := r.issued ++ [id] }
      | ((_, some _), b, d) => { buf := b, db := d, issued := r.issued }
  | Ev.bgFetch =>
      match bgFetchStep r.buf r.db with
      | (b, d) => { buf := b, db := d, issued := r.issued }
  | Ev.bgInstall => { r with buf := bgInstallStep r.buf }

/-- Execute a list of events in order. -/
def run (r : RunState) : List Ev → RunState
  | [] => r
  | e :: es => run (stepRun r e) es

/-- A fresh store row for one tag: boundary `m`, step `st`, failure script
`fails`, no calls yet. -/
def mkDB (m st : Int) (fails : List (Option String)) : LeafDB :=
  { maxId := m, step := st, fails := fails, calls := 0 }

/-- The state reached by creating a DoubleBuffer and running Init on a
fresh store (the starting point of the claims about one buffer). -/
def initRun (m st : Int) (fails : List (Option String)) : RunState :=
  match Init NewDoubleBuffer (mkDB m st fails) with
  | (_, b, db) => { buf := b, db := db, issued := [] }

/-- Registry mapping biz tags to their DoubleBuffer (LeafServer.buffers),
embedded as an association list, plus the shared store. -/
structure LeafServer where
  buffers : List (String × DoubleBuffer)
  db : LeafDB
  deriving DecidableEq

/-- Store back a buffer under its tag (the in-place mutation of the Go map
entry's pointee). -/
def setBuf : List (String × DoubleBuffer) → String → DoubleBuffer → List (String × DoubleBuffer)
  | [], tag, b => [(tag, b)]
  | (t, x) :: rest, tag, b =>
      if t = tag then (t, b) :: rest else (t, x) :: setBuf rest tag b

/-- GetID mirrors LeafServer.GetID: look the tag up; on a hit delegate to
NextID; on a miss construct a DoubleBuffer, run Init — on failure return
`fmt.Errorf("failed to initialize double buffer: %w", err)` without
registering the buffer — and on success register it and delegate. -/
def GetID (s : LeafServer) (tag : String) : (Int × Option String) × LeafServer :=
  match List.lookup tag s.buffers with
  | some buf =>
      match NextID buf s.db with
      | (r, b1, db1) => (r, { buffers := setBuf s.buffers tag b1, db := db1 })
  | none =>
      match Init NewDoubleBuffer s.db with
      | (some e, _, db1) =>
          ((0, some ("failed to initialize double buffer: " ++ e)),
            { buffers := s.buffers, db := db1 })
      | (none, buf1, db1) =>
          match NextID buf1 db1 with
          | (r, b1, db2) => (r, { buffers := setBuf s.buffers tag b1, db := db2 })

/-! Helper lemmas about the embedding. -/

theorem run_append (r : RunState) (l1 l2 : List Ev) :
    run r (l1 ++ l2) = run (run r l1) l2 := by
  induction l1 generalizing r with
  | nil => rfl
  | cons e es ih => simpa [run] using ih (stepRun r e)

theorem checkAndLoadNext_shape (b : DoubleBuffer) :
    ∃ ld tk, CheckAndLoadNext b = { b with isLoading := ld, bgTasks := tk } := by
  obtain ⟨cur?, nx, nr, ldg, tk⟩ := b
  cases cur? with
  | none => exact ⟨ldg, tk, rfl⟩
  | some cur =>
      unfold CheckAndLoadNext
      dsimp only
      split
      · exact ⟨ldg, tk, rfl⟩
      split
      · exact ⟨ldg, tk, rfl⟩
      split
      · exact ⟨ldg, tk, rfl⟩
      exact ⟨true, tk ++ [BgTask.spawned], rfl⟩

theorem checkAndLoadNext_quiet (b : DoubleBuffer) (c : Segment)
    (hc : b.current = some c) (hq : c.Step / 5 < Remaining c) :
    CheckAndLoadNext b = b := by
  obtain ⟨cur?, nx, nr, ldg, tk⟩ := b
  cases hc
  unfold CheckAndLoadNext
  dsimp only
  split
  · rfl
  rfl

theorem range_map_shift (a : Int) (n : Nat) :
    (List.range (n + 1)).map (fun k : Nat => a + (k : Int) + 1)
      = (a + 1) :: (List.range n).map (fun k : Nat => (a + 1) + (k : Int) + 1) := by
  rw [List.range_succ_eq_map]
  simp only [List.map_cons, List.map_map, Nat.cast_zero]
  congr 1
  · ring
  refine List.map_congr_left fun k _ => ?_
  simp only [Function.comp]
  push_cast
  ring

/-- Running `n` NextID calls entirely inside the current segment leaves the
store untouched, appends the ids `Cursor+1, …, Cursor+n` to the issued list
and advances only the cursor (plus possibly the prefetch flag and task). -/
theorem run_fast_calls (n : Nat) (r : RunState) (c : Segment)
    (hc : r.buf.current = some c) (hn : c.Cursor + n ≤ c.Max) :
    ∃ ld tk, run r (List.replicate n Ev.callNext) =
      { buf := { r.buf with
                   current := some ({ c with Cursor := c.Cursor + n }),
                   isLoading := ld, bgTasks := tk },
        db := r.db,
        issued := r.issued ++ (List.range n).map (fun k : Nat => c.Cursor + (k : Int) + 1) } := by
  induction n generalizing r c with
  | zero =>
      refine ⟨r.buf.isLoading, r.buf.bgTasks, ?_⟩
      obtain ⟨⟨cur?, nx, nr, ldg, tk⟩, db, issued⟩ := r
      cases hc
      simp [run]
  | succ n ih =>
      rw [List.replicate_succ, run]
      have hid : c.Cursor + 1 ≤ c.Max := by push_cast at hn; omega
      have hstep : stepRun r Ev.callNext =
          { buf := CheckAndLoadNext { r.buf with current := some ({ c with Cursor := c.Cursor + 1 }) },
            db := r.db, issued := r.issued ++ [c.Cursor + 1] } := by
        obtain ⟨⟨cur?, nx, nr, ldg, tk⟩, db, issued⟩ := r
        cases hc
        simp [stepRun, NextID, hid]
      obtain ⟨ld0, tk0, h0⟩ :=
        checkAndLoadNext_shape { r.buf with current := some ({ c with Cursor := c.Cursor + 1 }) }
      obtain ⟨ld, tk, hrec⟩ := ih
        (r := { buf := CheckAndLoadNext { r.buf with current := some ({ c with Cursor := c.Cursor + 1 }) },
                db := r.db, issued := r.issued ++ [c.Cursor + 1] })
        (c := { c with Cursor := c.Cursor + 1 })
        (by rw [h0]) (by dsimp only; push_cast at hn ⊢; omega)
      refine ⟨ld, tk, ?_⟩
      rw [hstep, hrec, h0]
      obtain ⟨⟨cur?, nx, nr, ldg, tk0'⟩, db, issued⟩ := r
      cases hc
      dsimp only
      rw [range_map_shift c.Cursor n]
      simp only [RunState.mk.injEq, DoubleBuffer.mk.injEq, Option.some.injEq, Segment.mk.injEq,
        List.append_assoc, List.cons_append, List.nil_append, List.singleton_append,
        true_and, and_true]
      push_cast
      ring

/-- Running `n` NextID calls that stay strictly above the prefetch threshold
touches nothing but the cursor and the issued list. -/
theorem run_quiet_calls (n : Nat) (r : RunState) (c : Segment)
    (hc : r.buf.current = some c) (hn : c.Cursor + n ≤ c.Max)
    (hq : c.Step / 5 < c.Max - (c.Cursor + n)) :
    run r (List.replicate n Ev.callNext) =
      { buf := { r.buf with current := some ({ c with Cursor := c.Cursor + n }) },
        db := r.db,
        issued := r.issued ++ (List.range n).map (fun k : Nat => c.Cursor + (k : Int) + 1) } := by
  induction n generalizing r c with
  | zero =>
      obtain ⟨⟨cur?, nx, nr, ldg, tk⟩, db, issued⟩ := r
      cases hc
      simp [run]
  | succ n ih =>
      rw [List.replicate_succ, run]
      have hid : c.Cursor + 1 ≤ c.Max := by push_cast at hn; omega
      have hstep : stepRun r Ev.callNext =
          { buf := CheckAndLoadNext { r.buf with current := some ({ c with Cursor := c.Cursor + 1 }) },
            db := r.db, issued := r.issued ++ [c.Cursor + 1] } := by
        obtain ⟨⟨cur?, nx, nr, ldg, tk⟩, db, issued⟩ := r
        cases hc
        simp [stepRun, NextID, hid]
      have hquiet : CheckAndLoadNext { r.buf with current := some ({ c with Cursor := c.Cursor + 1 }) }
          = { r.buf with current := some ({ c with Cursor := c.Cursor + 1 }) } := by
        refine checkAndLoadNext_quiet _ ({ c with Cursor := c.Cursor + 1 }) rfl ?_
        dsimp only [Remaining]
        push_cast at hq ⊢
        omega
      have hrec := ih
        (r := { buf := { r.buf with current := some ({ c with Cursor := c.Cursor + 1 }) },
                db := r.db, issued := r.issued ++ [c.Cursor + 1] })
        (c := { c with Cursor := c.Cursor + 1 })
        rfl (by dsimp only; push_cast at hn ⊢; omega)
        (by dsimp only; push_cast at hq ⊢; omega)
      rw [hstep, hquiet, hrec]
      obtain ⟨⟨cur?, nx, nr, ldg, tk⟩, db, issued⟩ := r
      cases hc
      dsimp only
      rw [range_map_shift c.Cursor n]
      simp only [RunState.mk.injEq, DoubleBuffer.mk.injEq, Option.some.injEq, Segment.mk.injEq,
        List.append_assoc, List.cons_append, List.nil_append, List.singleton_append,
        true_and, and_true]
      push_cast
      ring

theorem lookup_setBuf (bs : List (String × DoubleBuffer)) (tag : String) (b : DoubleBuffer) :
    List.lookup tag (setBuf bs tag b) = some b := by
  induction bs with
  | nil => simp [setBuf, List.lookup]
  | cons p rest ih =>
      obtain ⟨t, x⟩ := p
      by_cases h : t = tag
      · subst h
        simp [setBuf, List.lookup]
      · simp only [setBuf, if_neg h]
        rw [List.lookup]
        have : (tag == t) = false := by
          simp [beq_iff_eq]
          exact fun hh => h hh.symm
        rw [this]
        exact ih

theorem map_base_zero (n : Nat) :
    (List.range n).map (fun k : Nat => (0 : Int) + (k : Int) + 1)
      = (List.range n).map (fun k : Nat => (k : Int) + 1) :=
  List.map_congr_left fun k _ => by ring

/-! Theorems about the claims. -/

/-- C10: calling NextID on a DoubleBuffer whose Init has never succeeded
(current is nil) returns id 0 together with an error rather than crashing,
and leaves the buffer (and the store) unchanged. -/
theorem c10_nextid_uninitialized (b : DoubleBuffer) (db : LeafDB) (h : b.current = none) :
    NextID b db = ((0, some ("segment not initialized")), b, db) := by
  unfold NextID
  rw [h]

theorem c10_nextid_uninitialized_witness :
    NextID NewDoubleBuffer (mkDB 0 5 [])
      = ((0, some ("segment not initialized")), NewDoubleBuffer, mkDB 0 5 []) :=
  c10_nextid_uninitialized NewDoubleBuffer (mkDB 0 5 []) rfl

/-- C3: from a current Segment with base 0, max 1000, step 1000 (cursor at
base), the first 1000 NextID calls return exactly 1, …, 1000 in increasing
order with no gaps or repeats while no segment transition happens (one
store call — the init — and the original segment still installed), and the
1001st call performs a synchronous fetch transition (store calls go to 2,
a fresh segment (1000, 2000] is installed) before returning 1001. -/
theorem c3_exact_range_exhaustion :
    (run (initRun 0 1000 []) (List.replicate 1000 Ev.callNext)).issued
        = (List.range 1000).map (fun k : Nat => (k : Int) + 1) ∧
    (run (initRun 0 1000 []) (List.replicate 1000 Ev.callNext)).db.calls = 1 ∧
    (run (initRun 0 1000 []) (List.replicate 1000 Ev.callNext)).buf.current
        = some { Base := 0, Max := 1000, Step := 1000, Cursor := 1000 } ∧
    (run (initRun 0 1000 []) (List.replicate 1001 Ev.callNext)).issued
        = (List.range 1001).map (fun k : Nat => (k : Int) + 1) ∧
    (run (initRun 0 1000 []) (List.replicate 1001 Ev.callNext)).db.calls = 2 ∧
    (run (initRun 0 1000 []) (List.replicate 1001 Ev.callNext)).buf.current
        = some { Base := 1000, Max := 2000, Step := 1000, Cursor := 1001 } := by
  have h0 : initRun 0 1000 [] =
      { buf := { current := some { Base := 0, Max := 1000, Step := 1000, Cursor := 0 },
                 next := none, nextReady := false, isLoading := false, bgTasks := [] },
        db := { maxId := 1000, step := 1000, fails := [], calls := 1 },
        issued := [] } := by rfl
  obtain ⟨ld, tk, h1000⟩ := run_fast_calls 1000 (initRun 0 1000 [])
      { Base := 0, Max := 1000, Step := 1000, Cursor := 0 }
      (by rw [h0]) (by norm_num)
  rw [h0] at h1000
  dsimp only at h1000
  norm_num at h1000
  rw [h0]
  have hrep : List.replicate 1001 Ev.callNext
      = List.replicate 1000 Ev.callNext ++ [Ev.callNext] := by
    rw [← List.replicate_succ']
  have hr : (List.range 1001).map (fun k : Nat => (k : Int) + 1)
      = (List.range 1000).map (fun k : Nat => (k : Int) + 1) ++ [1001] := by
    rw [show (1001 : Nat) = 1000 + 1 from rfl, List.range_succ, List.map_append]
    norm_num
  refine ⟨by rw [h1000], by rw [h1000], by rw [h1000], ?_, ?_, ?_⟩ <;>
    rw [hrep, run_append, h1000] <;>
    (try rw [hr]) <;>
    norm_num [run, stepRun, NextID, FetchNextSegment]

/-- C2, counterexample: in the execution where a background prefetch's
store fetch commits before a synchronous fallback fetch but its install
happens after it (the goroutine fetches outside the mutex, so this
interleaving is allowed), a later promotion installs a segment lying below
the previous current segment's max, and the returned ids are not strictly
increasing: the run issues 15 before 6. -/
theorem c2_monotonicity_counterexample :
    (run (initRun 0 5 [])
        [Ev.callNext, Ev.callNext, Ev.callNext, Ev.callNext, Ev.callNext,
         Ev.bgFetch, Ev.callNext, Ev.bgInstall,
         Ev.callNext, Ev.callNext, Ev.callNext, Ev.callNext, Ev.callNext]).issued
      = [1, 2, 3, 4, 5, 11, 12, 13, 14, 15, 6] ∧
    ¬ List.Pairwise (· < ·)
      (run (initRun 0 5 [])
        [Ev.callNext, Ev.callNext, Ev.callNext, Ev.callNext, Ev.callNext,
         Ev.bgFetch, Ev.callNext, Ev.bgInstall,
         Ev.callNext, Ev.callNext, Ev.callNext, Ev.callNext, Ev.callNext]).issued := by
  decide

/-- C4, counterexample: a failed Init does not reach GetID's caller as the
exact store error: GetID wraps it in
`fmt.Errorf("failed to initialize double buffer: %w", err)`, so the
returned error differs from the store's own error. -/
theorem c4_exact_error_counterexample :
    (GetID { buffers := [], db := mkDB 0 5 [some ("db down")] } ("order")).1
        = (0, some ("failed to initialize double buffer: db down")) ∧
    ((0 : Int), some ("failed to initialize double buffer: db down"))
        ≠ ((0 : Int), some ("db down")) := by
  decide

/-- C4, amended: the synchronous fallback fetch error inside NextID's slow
path propagates unchanged to NextID's caller, while an Init failure is
returned by GetID wrapped with the fixed context message
"failed to initialize double buffer: " (preserving the underlying error as
a suffix rather than returning it verbatim). -/
theorem c4_sync_error_propagation :
    (∀ (b : DoubleBuffer) (db : LeafDB) (c : Segment) (e : String)
        (rest : List (Option String)),
        b.current = some c → c.Max ≤ c.Cursor →
        (b.nextReady = false ∨ b.next = none) →
        db.fails = some e :: rest →
        (NextID b db).1 = (0, some e)) ∧
    (∀ (s : LeafServer) (tag e : String) (rest : List (Option String)),
        List.lookup tag s.buffers = none →
        s.db.fails = some e :: rest →
        (GetID s tag).1 = (0, some ("failed to initialize double buffer: " ++ e))) := by
  constructor
  · intro b db c e rest hc hex hnr hf
    obtain ⟨cur?, nx, nr, ldg, tk⟩ := b
    cases hc
    obtain ⟨m, st, fails, calls⟩ := db
    dsimp only at hf
    subst hf
    cases nr with
    | false =>
        unfold NextID
        dsimp only
        rw [if_neg (by omega), if_neg (by omega)]
        rfl
    | true =>
        have hnx : nx = none := by
          rcases hnr with h | h
          · exact absurd h (by simp)
          · exact h
        subst hnx
        unfold NextID
        dsimp only
        rw [if_neg (by omega), if_neg (by omega)]
        rfl
  · intro s tag e rest hl hf
    obtain ⟨bs, db⟩ := s
    obtain ⟨m, st, fails, calls⟩ := db
    dsimp only at hl hf
    subst hf
    unfold GetID
    rw [hl]
    rfl

theorem c4_sync_error_propagation_witness :
    (NextID { current := some { Base := 0, Max := 5, Step := 5, Cursor := 5 }, next := none,
              nextReady := false, isLoading := false, bgTasks := [] }
        (mkDB 5 5 [some ("boom")])).1 = (0, some ("boom")) ∧
    (GetID { buffers := [], db := mkDB 0 5 [some ("boom")] } ("order")).1
        = (0, some ("failed to initialize double buffer: " ++ "boom")) :=
  ⟨c4_sync_error_propagation.1 _ _ { Base := 0, Max := 5, Step := 5, Cursor := 5 } ("boom") []
      rfl (by norm_num) (Or.inl rfl) rfl,
    c4_sync_error_propagation.2 _ ("order") ("boom") [] rfl rfl⟩

/-- C5: when the synchronous fallback fetch inside NextID's slow path
fails, NextID returns id 0 with exactly the store's error; the buffer keeps
its current segment (same base, max and step — only the cursor moved
further past max; the `next` and `nextReady` fields and the store row are
untouched, no segment is installed), so the next NextID call reaches the
very same fallback and succeeds as soon as the store does. -/
theorem c5_fallback_failure_retry (b : DoubleBuffer) (db : LeafDB) (c : Segment)
    (e : String) (rest : List (Option String))
    (hc : b.current = some c) (hex : c.Max ≤ c.Cursor)
    (hnr : b.nextReady = false ∨ b.next = none)
    (hf : db.fails = some e :: rest) :
    NextID b db = ((0, some e),
        { b with current := some ({ c with Cursor := c.Cursor + 1 + 1 }) },
        { db with fails := rest, calls := db.calls + 1 }) ∧
    ((rest = [] ∨ ∃ r2, rest = none :: r2) →
      (NextID { b with current := some ({ c with Cursor := c.Cursor + 1 + 1 }) }
          { db with fails := rest, calls := db.calls + 1 }).1 = (db.maxId + 1, none)) := by
  obtain ⟨cur?, nx, nr, ldg, tk⟩ := b
  cases hc
  obtain ⟨m, st, fails, calls⟩ := db
  dsimp only at hf
  subst hf
  have hnx : nr = true → nx = none := by
    intro h
    rcases hnr with h' | h'
    · dsimp only at h'
      rw [h] at h'
      exact Bool.noConfusion h'
    · exact h'
  constructor
  · cases nr with
    | false =>
        unfold NextID
        dsimp only
        rw [if_neg (by omega), if_neg (by omega)]
        rfl
    | true =>
        rw [hnx rfl]
        unfold NextID
        dsimp only
        rw [if_neg (by omega), if_neg (by omega)]
        rfl
  · intro hrest
    cases nr with
    | false =>
        unfold NextID
        dsimp only
        rw [if_neg (by omega), if_neg (by omega)]
        rcases hrest with h | ⟨r2, h⟩ <;> subst h <;> norm_num [FetchNextSegment]
    | true =>
        rw [hnx rfl]
        unfold NextID
        dsimp only
        rw [if_neg (by omega), if_neg (by omega)]
        rcases hrest with h | ⟨r2, h⟩ <;> subst h <;> norm_num [FetchNextSegment]

theorem c5_fallback_failure_retry_witness :
    NextID { current := some { Base := 0, Max := 5, Step := 5, Cursor := 5 }, next := none,
             nextReady := false, isLoading := false, bgTasks := [] }
        (mkDB 5 5 [some ("boom")])
      = ((0, some ("boom")),
         { current := some { Base := 0, Max := 5, Step := 5, Cursor := 5 + 1 + 1 }, next := none,
           nextReady := false, isLoading := false, bgTasks := [] },
         { maxId := 5, step := 5, fails := [], calls := 0 + 1 }) ∧
    ((([] : List (Option String)) = [] ∨ ∃ r2, ([] : List (Option String)) = none :: r2) →
      (NextID { current := some { Base := 0, Max := 5, Step := 5, Cursor := 5 + 1 + 1 },
                next := none, nextReady := false, isLoading := false, bgTasks := [] }
          { maxId := 5, step := 5, fails := [], calls := 0 + 1 }).1 = (5 + 1, none)) :=
  c5_fallback_failure_retry _ _ { Base := 0, Max := 5, Step := 5, Cursor := 5 } ("boom") []
    rfl (by norm_num) (Or.inl rfl) rfl

/-- C8: if Init fails while GetID is creating the DoubleBuffer for a
previously unseen tag, the buffer is not inserted into the registry map
(buffers are unchanged, only the store's failure script was consumed) and
the error is returned; a later GetID call for the same tag therefore
retries creation from scratch, and once the store succeeds it returns the
first id of the fresh segment and registers the tag. -/
theorem c8_failed_init_not_registered (s : LeafServer) (tag e : String)
    (rest : List (Option String))
    (hl : List.lookup tag s.buffers = none)
    (hf : s.db.fails = some e :: rest)
    (hst : 1 ≤ s.db.step) :
    GetID s tag = ((0, some ("failed to initialize double buffer: " ++ e)),
        { buffers := s.buffers, db := { s.db with fails := rest, calls := s.db.calls + 1 } }) ∧
    ((rest = [] ∨ ∃ r2, rest = none :: r2) →
      (GetID { buffers := s.buffers,
               db := { s.db with fails := rest, calls := s.db.calls + 1 } } tag).1
          = (s.db.maxId + 1, none) ∧
      (List.lookup tag
          (GetID { buffers := s.buffers,
                   db := { s.db with fails := rest, calls := s.db.calls + 1 } } tag).2.buffers).isSome
          = true) := by
  obtain ⟨bs, db⟩ := s
  obtain ⟨m, st, fails, calls⟩ := db
  dsimp only at hl hf hst ⊢
  subst hf
  constructor
  · unfold GetID
    rw [hl]
    rfl
  · intro hrest
    have hmain : ∀ (fl : List (Option String)), fl = [] ∨ (∃ r2, fl = none :: r2) →
        (GetID { buffers := bs,
                 db := { maxId := m, step := st, fails := fl, calls := calls + 1 } } tag).1
            = (m + 1, none) ∧
        (List.lookup tag
            (GetID { buffers := bs,
                     db := { maxId := m, step := st, fails := fl,
                             calls := calls + 1 } } tag).2.buffers).isSome = true := by
      intro fl hfl
      have hgo : ∀ (g : (Int × Option String) × LeafServer),
          g = GetID { buffers := bs,
                      db := { maxId := m, step := st, fails := fl,
                              calls := calls + 1 } } tag →
          g.1 = (m + 1, none) ∧ (List.lookup tag g.2.buffers).isSome = true := by
        intro g hg
        rcases hfl with h | ⟨r2, h⟩ <;> subst h <;>
          rw [hg] <;>
          unfold GetID <;>
          rw [hl] <;>
          unfold Init FetchNextSegment NewDoubleBuffer NextID <;>
          dsimp only <;>
          rw [if_pos (by omega)] <;>
          refine ⟨by norm_num, ?_⟩ <;>
          rw [lookup_setBuf] <;>
          rfl
      exact hgo _ rfl
    exact hmain rest hrest

theorem c8_failed_init_not_registered_witness :
    GetID { buffers := [], db := mkDB 0 5 [some ("boom")] } ("order")
      = ((0, some ("failed to initialize double buffer: " ++ "boom")),
         { buffers := [], db := { maxId := 0, step := 5, fails := [], calls := 0 + 1 } }) ∧
    ((([] : List (Option String)) = [] ∨ ∃ r2, ([] : List (Option String)) = none :: r2) →
      ((GetID { buffers := [],
                db := { maxId := 0, step := 5, fails := [], calls := 0 + 1 } } ("order")).1
          = (0 + 1, none) ∧
        (List.lookup ("order")
            (GetID { buffers := [],
                     db := { maxId := 0, step := 5, fails := [], calls := 0 + 1 } }
              ("order")).2.buffers).isSome = true)) :=
  c8_failed_init_not_registered _ ("order") ("boom") [] rfl rfl (by decide)

/-- C6: CheckAndLoadNext spawns the background prefetch exactly when the
next buffer is not ready, no load is in flight, and the current segment's
Remaining() has dropped to the threshold `step / 5` (the exact value of Go's
`int64(float64(step) * 0.2)` here); concretely, with step 100 the first 79
calls spawn nothing and the 80th call spawns the prefetch, at the moment
Remaining() first equals 20. -/
theorem c6_prefetch_threshold :
    (∀ (b : DoubleBuffer) (cur : Segment), b.current = some cur →
        (((CheckAndLoadNext b).isLoading = true ∧
            (CheckAndLoadNext b).bgTasks = b.bgTasks ++ [BgTask.spawned]) ↔
          (b.nextReady = false ∧ b.isLoading = false ∧ Remaining cur ≤ cur.Step / 5))) ∧
    (∀ k : Nat, k < 80 →
        (run (initRun 0 100 []) (List.replicate k Ev.callNext)).buf.bgTasks = []) ∧
    (run (initRun 0 100 []) (List.replicate 80 Ev.callNext)).buf.bgTasks = [BgTask.spawned] ∧
    (run (initRun 0 100 []) (List.replicate 80 Ev.callNext)).buf.current
        = some { Base := 0, Max := 100, Step := 100, Cursor := 80 } := by
  have hne : ∀ (tk : List BgTask), tk = tk ++ [BgTask.spawned] → False := by
    intro tk habs
    have := congrArg List.length habs
    simp at this
  have hpart1 : ∀ (b : DoubleBuffer) (cur : Segment), b.current = some cur →
      (((CheckAndLoadNext b).isLoading = true ∧
          (CheckAndLoadNext b).bgTasks = b.bgTasks ++ [BgTask.spawned]) ↔
        (b.nextReady = false ∧ b.isLoading = false ∧ Remaining cur ≤ cur.Step / 5)) := by
    intro b cur hc
    obtain ⟨cur?, nx, nr, ldg, tk⟩ := b
    cases hc
    by_cases h2 : Remaining cur ≤ cur.Step / 5
    · cases nr with
      | true =>
          have hcal : CheckAndLoadNext
              { current := some cur, next := nx, nextReady := true, isLoading := ldg, bgTasks := tk }
              = { current := some cur, next := nx, nextReady := true, isLoading := ldg,
                  bgTasks := tk } := by
            unfold CheckAndLoadNext
            dsimp only
            rw [if_pos (by simp)]
          rw [hcal]
          dsimp only
          constructor
          · rintro ⟨-, habs⟩
            exact absurd habs (fun h => hne tk h)
          · rintro ⟨habs, -, -⟩
            exact Bool.noConfusion habs
      | false =>
          cases ldg with
          | true =>
              have hcal : CheckAndLoadNext
                  { current := some cur, next := nx, nextReady := false, isLoading := true,
                    bgTasks := tk }
                  = { current := some cur, next := nx, nextReady := false, isLoading := true,
                      bgTasks := tk } := by
                unfold CheckAndLoadNext
                dsimp only
                rw [if_pos (by simp)]
              rw [hcal]
              dsimp only
              constructor
              · rintro ⟨-, habs⟩
                exact absurd habs (fun h => hne tk h)
              · rintro ⟨-, habs, -⟩
                exact Bool.noConfusion habs
          | false =>
              have hcal : CheckAndLoadNext
                  { current := some cur, next := nx, nextReady := false, isLoading := false,
                    bgTasks := tk }
                  = { current := some cur, next := nx, nextReady := false, isLoading := true,
                      bgTasks := tk ++ [BgTask.spawned] } := by
                unfold CheckAndLoadNext
                dsimp only
                rw [if_neg (by simp), if_neg (by omega), if_neg (by simp)]
              rw [hcal]
              dsimp only
              simp [h2]
    · rw [checkAndLoadNext_quiet _ cur rfl (by omega)]
      dsimp only
      constructor
      · rintro ⟨-, habs⟩
        exact absurd habs (fun h => hne tk h)
      · rintro ⟨-, -, habs⟩
        exact absurd habs h2
  have h0 : initRun 0 100 [] =
      { buf := { current := some { Base := 0, Max := 100, Step := 100, Cursor := 0 },
                 next := none, nextReady := false, isLoading := false, bgTasks := [] },
        db := { maxId := 100, step := 100, fails := [], calls := 1 },
        issued := [] } := by rfl
  have hquiet : ∀ k : Nat, (k : Int) ≤ 79 →
      run (initRun 0 100 []) (List.replicate k Ev.callNext)
        = { buf := { current := some { Base := 0, Max := 100, Step := 100, Cursor := (k : Int) },
                     next := none, nextReady := false, isLoading := false, bgTasks := [] },
            db := { maxId := 100, step := 100, fails := [], calls := 1 },
            issued := (List.range k).map (fun j : Nat => (j : Int) + 1) } := by
    intro k hk
    have hdiv : (100 : Int) / 5 = 20 := by norm_num
    have hq := run_quiet_calls k (initRun 0 100 [])
        { Base := 0, Max := 100, Step := 100, Cursor := 0 }
        (by rw [h0]) (by dsimp only; omega) (by dsimp only; rw [hdiv]; omega)
    rw [h0] at hq
    dsimp only at hq
    rw [h0, hq]
    norm_num
  refine ⟨hpart1, ?_, ?_, ?_⟩
  · intro k hk
    rw [hquiet k (by omega)]
  · rw [show (80 : Nat) = 79 + 1 from rfl, List.replicate_succ', run_append, hquiet 79 (by norm_num)]
    norm_num [run, stepRun, NextID, CheckAndLoadNext, Remaining]
  · rw [show (80 : Nat) = 79 + 1 from rfl, List.replicate_succ', run_append, hquiet 79 (by norm_num)]
    norm_num [run, stepRun, NextID, CheckAndLoadNext, Remaining]

theorem c6_prefetch_threshold_witness :
    (run (initRun 0 100 []) (List.replicate 3 Ev.callNext)).buf.bgTasks = [] :=
  c6_prefetch_threshold.2.1 3 (by norm_num)

/-! Machinery for the single-flight prefetch invariant (C9). -/

/-- The loading flag is set exactly while a background task is in flight,
and never more than one task is in flight. -/
def loadFlagInv (b : DoubleBuffer) : Prop :=
  (b.isLoading = true ↔ b.bgTasks ≠ []) ∧ b.bgTasks.length ≤ 1

theorem checkAndLoadNext_flags (b : DoubleBuffer) :
    CheckAndLoadNext b = b ∨
    (b.isLoading = false ∧ CheckAndLoadNext b
        = { b with isLoading := true, bgTasks := b.bgTasks ++ [BgTask.spawned] }) := by
  obtain ⟨cur?, nx, nr, ldg, tk⟩ := b
  cases cur? with
  | none => exact Or.inl rfl
  | some cur =>
      unfold CheckAndLoadNext
      dsimp only
      by_cases h1 : (nr || ldg) = true
      · rw [if_pos h1]
        exact Or.inl rfl
      · rw [if_neg h1]
        have hldg : ldg = false := by revert h1; cases ldg <;> simp
        by_cases h2 : Remaining cur > cur.Step / 5
        · rw [if_pos h2]
          exact Or.inl rfl
        · rw [if_neg h2, if_neg (by rw [hldg]; simp)]
          exact Or.inr ⟨hldg, rfl⟩

theorem nextID_flags (b : DoubleBuffer) (db : LeafDB) :
    ((NextID b db).2.1.isLoading = b.isLoading ∧ (NextID b db).2.1.bgTasks = b.bgTasks) ∨
    (b.isLoading = false ∧ (NextID b db).2.1.isLoading = true ∧
      (NextID b db).2.1.bgTasks = b.bgTasks ++ [BgTask.spawned]) := by
  obtain ⟨cur?, nx, nr, ldg, tk⟩ := b
  cases cur? with
  | none => exact Or.inl ⟨rfl, rfl⟩
  | some cur =>
      unfold NextID
      dsimp only
      by_cases h1 : cur.Cursor + 1 ≤ cur.Max
      · rw [if_pos h1]
        dsimp only
        rcases checkAndLoadNext_flags
            { current := some ({ cur with Cursor := cur.Cursor + 1 }), next := nx,
              nextReady := nr, isLoading := ldg, bgTasks := tk } with h | ⟨hl, h⟩
        · rw [h]
          exact Or.inl ⟨rfl, rfl⟩
        · rw [h]
          exact Or.inr ⟨hl, rfl, rfl⟩
      · rw [if_neg h1]
        by_cases h2 : cur.Cursor + 1 + 1 ≤ cur.Max
        · rw [if_pos h2]
          exact Or.inl ⟨rfl, rfl⟩
        · rw [if_neg h2]
          cases nr with
          | true =>
              cases nx with
              | some nseg => exact Or.inl ⟨rfl, rfl⟩
              | none =>
                  rcases hfd : FetchNextSegment db with ⟨fr, db1⟩
                  cases fr with
                  | fail e => exact Or.inl ⟨rfl, rfl⟩
                  | ok seg => exact Or.inl ⟨rfl, rfl⟩
          | false =>
              rcases hfd : FetchNextSegment db with ⟨fr, db1⟩
              cases fr with
              | fail e => exact Or.inl ⟨rfl, rfl⟩
              | ok seg => exact Or.inl ⟨rfl, rfl⟩

theorem stepRun_callNext_buf (r : RunState) :
    (stepRun r Ev.callNext).buf = (NextID r.buf r.db).2.1 := by
  unfold stepRun
  rcases hres : NextID r.buf r.db with ⟨⟨id, err?⟩, b', db'⟩
  cases err? <;> rfl

theorem loadFlagInv_step (r : RunState) (e : Ev) (h : loadFlagInv r.buf) :
    loadFlagInv (stepRun r e).buf := by
  cases e with
  | callNext =>
      rw [stepRun_callNext_buf]
      rcases nextID_flags r.buf r.db with ⟨h1, h2⟩ | ⟨h0, h1, h2⟩
      · exact ⟨by rw [h1, h2]; exact h.1, by rw [h2]; exact h.2⟩
      · have htk : r.buf.bgTasks = [] := by
          by_contra hne
          have := h.1.mpr hne
          rw [h0] at this
          exact Bool.noConfusion this
        refine ⟨?_, ?_⟩
        · rw [h1, h2, htk]
          simp
        · rw [h2, htk]
          simp
  | bgFetch =>
      obtain ⟨⟨cur?, nx, nr, ldg, tk⟩, db, issued⟩ := r
      unfold stepRun bgFetchStep
      dsimp only
      cases tk with
      | nil => exact h
      | cons t rest =>
          cases t with
          | spawned =>
              have hldg : ldg = true := h.1.mpr (by simp)
              rcases hfd : FetchNextSegment db with ⟨fr, db1⟩
              cases fr with
              | fail e =>
                  refine ⟨⟨fun _ => by simp, fun _ => hldg⟩, ?_⟩
                  simpa using h.2
              | ok seg =>
                  refine ⟨⟨fun _ => by simp, fun _ => hldg⟩, ?_⟩
                  simpa using h.2
          | fetched r' => exact h
  | bgInstall =>
      obtain ⟨⟨cur?, nx, nr, ldg, tk⟩, db, issued⟩ := r
      unfold stepRun bgInstallStep
      dsimp only
      cases tk with
      | nil => exact h
      | cons t rest =>
          have hrest : rest = [] := by
            have h2 := h.2
            simp only [List.length_cons] at h2
            have : rest.length = 0 := by omega
            exact List.eq_nil_of_length_eq_zero this
          subst hrest
          cases t with
          | spawned => exact h
          | fetched r' =>
              cases r' with
              | none => exact ⟨by simp, by simp⟩
              | some seg => exact ⟨by simp, by simp⟩

theorem loadFlagInv_run (r : RunState) (evs : List Ev) (h : loadFlagInv r.buf) :
    loadFlagInv (run r evs).buf := by
  induction evs generalizing r with
  | nil => exact h
  | cons e es ih => exact ih (stepRun r e) (loadFlagInv_step r e h)

theorem initRun_buf (m st : Int) (fails : List (Option String)) :
    (initRun m st fails).buf.isLoading = false ∧ (initRun m st fails).buf.bgTasks = [] := by
  unfold initRun Init
  rcases hfd : FetchNextSegment (mkDB m st fails) with ⟨fr, db1⟩
  cases fr with
  | fail e => exact ⟨rfl, rfl⟩
  | ok seg => exact ⟨rfl, rfl⟩

/-- C9: at most one background prefetch is in flight per DoubleBuffer at
any time — after any interleaving of NextID calls, background fetches and
background installs, the number of in-flight prefetch tasks is at most one,
and the loading flag is set exactly while a task is in flight (it is reset
only when the task finishes). -/
theorem c9_single_flight (m st : Int) (fails : List (Option String)) (evs : List Ev) :
    (run (initRun m st fails) evs).buf.bgTasks.length ≤ 1 ∧
    ((run (initRun m st fails) evs).buf.isLoading = true ↔
      (run (initRun m st fails) evs).buf.bgTasks ≠ []) := by
  have hinv : loadFlagInv (run (initRun m st fails) evs).buf := by
    refine loadFlagInv_run _ _ ?_
    obtain ⟨hl, ht⟩ := initRun_buf m st fails
    constructor
    · rw [hl, ht]
      simp
    · rw [ht]
      simp
  exact ⟨hinv.2, hinv.1⟩

/-! Machinery for uniqueness (C1) and the segment range invariants (C7). -/

/-- Ids the segment can still issue: strictly above the cursor, at most max. -/
def inRange (i : Int) (s : Segment) : Prop :=
  s.Cursor < i ∧ i ≤ s.Max

/-- Ids of the segment's full reserved chunk (base exclusive, max inclusive). -/
def inChunk (i : Int) (s : Segment) : Prop :=
  s.Base < i ∧ i ≤ s.Max

/-- Two segments with disjoint reserved chunks. -/
def Sep (s t : Segment) : Prop :=
  s.Max ≤ t.Base ∨ t.Max ≤ s.Base

theorem inRange_inChunk {i : Int} {s : Segment} (hbc : s.Base ≤ s.Cursor)
    (h : inRange i s) : inChunk i s :=
  ⟨lt_of_le_of_lt hbc h.1, h.2⟩

theorem sep_not_both {i : Int} {s t : Segment} (hsep : Sep s t)
    (hs : inChunk i s) (ht : inChunk i t) : False := by
  obtain ⟨hs1, hs2⟩ := hs
  obtain ⟨ht1, ht2⟩ := ht
  rcases hsep with h | h <;> omega

/-- Segments already fetched by in-flight background tasks. -/
def segsOf (tks : List BgTask) : List Segment :=
  tks.filterMap fun t =>
    match t with
    | BgTask.fetched (some s) => some s
    | _ => none

theorem segsOf_spawn (tk : List BgTask) :
    segsOf (tk ++ [BgTask.spawned]) = segsOf tk := by
  simp [segsOf, List.filterMap_append]

/-- An id the buffer may still hand out in the future: from the current
segment past its cursor, from the staged next segment, from a fetched
background segment, or from a range the store has not reserved yet. -/
def avail (i : Int) (b : DoubleBuffer) (db : LeafDB) : Prop :=
  (∃ c, b.current = some c ∧ inRange i c) ∨
  (∃ n, b.next = some n ∧ inRange i n) ∨
  (∃ s ∈ segsOf b.bgTasks, inRange i s) ∨
  db.maxId < i

/-- Structural invariant tying the buffer to the store: every present
segment sits below the store boundary with a sane cursor, and all present
reserved chunks are pairwise disjoint. -/
structure StInv (b : DoubleBuffer) (db : LeafDB) : Prop where
  stepPos : 1 ≤ db.step
  curOk : ∀ c, b.current = some c → c.Base ≤ c.Cursor ∧ c.Max ≤ db.maxId
  curChunk : ∀ c, b.current = some c → c.Base < c.Max
  nextOk : ∀ n, b.next = some n → n.Base ≤ n.Cursor ∧ n.Max ≤ db.maxId ∧ n.Cursor < n.Max
  bgOk : ∀ s ∈ segsOf b.bgTasks, s.Base ≤ s.Cursor ∧ s.Max ≤ db.maxId ∧ s.Cursor < s.Max
  curNext : ∀ c n, b.current = some c → b.next = some n → Sep c n
  curBg : ∀ c s, b.current = some c → s ∈ segsOf b.bgTasks → Sep c s
  nextBg : ∀ n s, b.next = some n → s ∈ segsOf b.bgTasks → Sep n s
  bgBg : List.Pairwise Sep (segsOf b.bgTasks)

/-- The run invariant for uniqueness: structurally sound state, no
duplicates so far, and no already-issued id is still available. -/
def UInv (r : RunState) : Prop :=
  StInv r.buf r.db ∧ r.issued.Nodup ∧ ∀ i ∈ r.issued, ¬ avail i r.buf r.db

theorem uInv_fetch_ok_aux
    (cur? nx : Option Segment) (nr ldg : Bool) (rest : List BgTask)
    (m st : Int) (fl fl' : List (Option String)) (calls calls' : Nat) (issued : List Int)
    (h : UInv ⟨⟨cur?, nx, nr, ldg, BgTask.spawned :: rest⟩, ⟨m, st, fl, calls⟩, issued⟩) :
    UInv ⟨⟨cur?, nx, nr, ldg,
          BgTask.fetched (some ⟨m + st - st, m + st, st, m + st - st⟩) :: rest⟩,
        ⟨m + st, st, fl', calls'⟩, issued⟩ := by
  obtain ⟨hS, hN, hA⟩ := h
  have hst : (1 : Int) ≤ st := hS.stepPos
  have hcur : ∀ c, cur? = some c → c.Base ≤ c.Cursor ∧ c.Max ≤ m := hS.curOk
  have hnext : ∀ n, nx = some n → n.Base ≤ n.Cursor ∧ n.Max ≤ m ∧ n.Cursor < n.Max := hS.nextOk
  have hbg : ∀ s ∈ segsOf rest, s.Base ≤ s.Cursor ∧ s.Max ≤ m ∧ s.Cursor < s.Max := hS.bgOk
  have hcb : ∀ c s, cur? = some c → s ∈ segsOf rest → Sep c s := hS.curBg
  have hnb : ∀ n s, nx = some n → s ∈ segsOf rest → Sep n s := hS.nextBg
  refine ⟨?_, hN, ?_⟩
  · refine
      { stepPos := hst
        curOk := ?_
        curChunk := hS.curChunk
        nextOk := ?_
        bgOk := ?_
        curNext := hS.curNext
        curBg := ?_
        nextBg := ?_
        bgBg := ?_ }
    · intro c hc
      obtain ⟨h1, h2⟩ := hcur c hc
      exact ⟨h1, show c.Max ≤ m + st by omega⟩
    · intro n hn
      obtain ⟨h1, h2, h3⟩ := hnext n hn
      exact ⟨h1, show n.Max ≤ m + st by omega, h3⟩
    · intro s hs
      have hs' : s = ⟨m + st - st, m + st, st, m + st - st⟩ ∨ s ∈ segsOf rest :=
        List.mem_cons.mp hs
      rcases hs' with hs' | hs'
      · subst hs'
        exact ⟨le_refl _, le_refl _, show m + st - st < m + st by omega⟩
      · obtain ⟨h1, h2, h3⟩ := hbg s hs'
        exact ⟨h1, show s.Max ≤ m + st by omega, h3⟩
    · intro c s hc hs
      have hs' : s = ⟨m + st - st, m + st, st, m + st - st⟩ ∨ s ∈ segsOf rest :=
        List.mem_cons.mp hs
      rcases hs' with hs' | hs'
      · subst hs'
        obtain ⟨-, h2⟩ := hcur c hc
        exact Or.inl (show c.Max ≤ m + st - st by omega)
      · exact hcb c s hc hs'
    · intro n s hn hs
      have hs' : s = ⟨m + st - st, m + st, st, m + st - st⟩ ∨ s ∈ segsOf rest :=
        List.mem_cons.mp hs
      rcases hs' with hs' | hs'
      · subst hs'
        obtain ⟨-, h2, -⟩ := hnext n hn
        exact Or.inl (show n.Max ≤ m + st - st by omega)
      · exact hnb n s hn hs'
    · refine List.Pairwise.cons ?_ hS.bgBg
      intro s hs
      obtain ⟨-, h2, -⟩ := hbg s hs
      exact Or.inr (show s.Max ≤ m + st - st by omega)
  · intro i hi hav
    refine hA i hi ?_
    rcases hav with ⟨c, hc, hr⟩ | (⟨n, hn, hr⟩ | (⟨s, hs, hr⟩ | htail))
    · exact Or.inl ⟨c, hc, hr⟩
    · exact Or.inr (Or.inl ⟨n, hn, hr⟩)
    · have hs' : s = ⟨m + st - st, m + st, st, m + st - st⟩ ∨ s ∈ segsOf rest :=
        List.mem_cons.mp hs
      rcases hs' with hs' | hs'
      · subst hs'
        have hr1 : m + st - st < i := hr.1
        refine Or.inr (Or.inr (Or.inr (show m < i by omega)))
      · exact Or.inr (Or.inr (Or.inl ⟨s, hs', hr⟩))
    · have htail' : m + st < i := htail
      exact Or.inr (Or.inr (Or.inr (show m < i by omega)))

theorem uInv_bgFetch (r : RunState) (h : UInv r) : UInv (stepRun r Ev.bgFetch) := by
  obtain ⟨⟨cur?, nx, nr, ldg, tk⟩, ⟨m, st, fails, calls⟩, issued⟩ := r
  unfold stepRun bgFetchStep
  dsimp only
  cases tk with
  | nil => exact h
  | cons t rest =>
      cases t with
      | fetched r' => exact h
      | spawned =>
          cases fails with
          | nil =>
              exact uInv_fetch_ok_aux cur? nx nr ldg rest m st [] [] calls (calls + 1) issued h
          | cons f fs =>
              cases f with
              | some e => exact ⟨⟨h.1.stepPos, h.1.curOk, h.1.curChunk, h.1.nextOk, h.1.bgOk,
                  h.1.curNext, h.1.curBg, h.1.nextBg, h.1.bgBg⟩, h.2.1, h.2.2⟩
              | none =>
                  exact uInv_fetch_ok_aux cur? nx nr ldg rest m st (none :: fs) fs calls
                    (calls + 1) issued h

theorem uInv_bgInstall (r : RunState) (h : UInv r) : UInv (stepRun r Ev.bgInstall) := by
  obtain ⟨⟨cur?, nx, nr, ldg, tk⟩, ⟨m, st, fails, calls⟩, issued⟩ := r
  unfold stepRun bgInstallStep
  dsimp only
  cases tk with
  | nil => exact h
  | cons t rest =>
      cases t with
      | spawned => exact h
      | fetched r' =>
          obtain ⟨hS, hN, hA⟩ := h
          cases r' with
          | none =>
              exact ⟨⟨hS.stepPos, hS.curOk, hS.curChunk, hS.nextOk, hS.bgOk, hS.curNext,
                hS.curBg, hS.nextBg, hS.bgBg⟩, hN, hA⟩
          | some seg =>
              have hsegMem : seg ∈ segsOf (BgTask.fetched (some seg) :: rest) :=
                List.mem_cons_self seg (segsOf rest)
              have hsegOk : seg.Base ≤ seg.Cursor ∧ seg.Max ≤ m ∧ seg.Cursor < seg.Max :=
                hS.bgOk seg hsegMem
              have hbbAll : ∀ s ∈ segsOf rest, Sep seg s ∧ True := by
                have hp : List.Pairwise Sep (seg :: segsOf rest) := hS.bgBg
                intro s hs
                exact ⟨(List.pairwise_cons.mp hp).1 s hs, trivial⟩
              refine ⟨?_, hN, ?_⟩
              · refine
                  { stepPos := hS.stepPos
                    curOk := hS.curOk
                    curChunk := hS.curChunk
                    nextOk := ?_
                    bgOk := fun s hs => hS.bgOk s (List.mem_cons_of_mem _ hs)
                    curNext := ?_
                    curBg := fun c s hc hs => hS.curBg c s hc (List.mem_cons_of_mem _ hs)
                    nextBg := ?_
                    bgBg := (List.pairwise_cons.mp hS.bgBg).2 }
                · intro n hn
                  cases Option.some.inj hn
                  exact hsegOk
                · intro c n hc hn
                  cases Option.some.inj hn
                  exact hS.curBg c seg hc hsegMem
                · intro n s hn hs
                  cases Option.some.inj hn
                  exact (hbbAll s hs).1
              · intro i hi hav
                refine hA i hi ?_
                rcases hav with ⟨c, hc, hr⟩ | (⟨n, hn, hr⟩ | (⟨s, hs, hr⟩ | htail))
                · exact Or.inl ⟨c, hc, hr⟩
                · cases Option.some.inj hn
                  exact Or.inr (Or.inr (Or.inl ⟨seg, hsegMem, hr⟩))
                · exact Or.inr (Or.inr (Or.inl ⟨s, List.mem_cons_of_mem _ hs, hr⟩))
                · exact Or.inr (Or.inr (Or.inr htail))

theorem nodup_append_new (l : List Int) (a : Int) (hl : l.Nodup) (ha : a ∉ l) :
    (l ++ [a]).Nodup := by
  rw [List.nodup_append]
  exact ⟨hl, List.nodup_singleton a,
    fun x hx hmem => ha ((List.mem_singleton.mp hmem) ▸ hx)⟩

theorem uInv_callNext (r : RunState) (h : UInv r) : UInv (stepRun r Ev.callNext) := by
  obtain ⟨⟨cur?, nx, nr, ldg, tk⟩, ⟨m, st, fails, calls⟩, issued⟩ := r
  obtain ⟨hS, hN, hA⟩ := h
  have hst : (1 : Int) ≤ st := hS.stepPos
  have hcur : ∀ c, cur? = some c → c.Base ≤ c.Cursor ∧ c.Max ≤ m := hS.curOk
  have hcC : ∀ c, cur? = some c → c.Base < c.Max := hS.curChunk
  have hnext : ∀ n, nx = some n → n.Base ≤ n.Cursor ∧ n.Max ≤ m ∧ n.Cursor < n.Max := hS.nextOk
  have hbg : ∀ s ∈ segsOf tk, s.Base ≤ s.Cursor ∧ s.Max ≤ m ∧ s.Cursor < s.Max := hS.bgOk
  have hcn : ∀ c n, cur? = some c → nx = some n → Sep c n := hS.curNext
  have hcb : ∀ c s, cur? = some c → s ∈ segsOf tk → Sep c s := hS.curBg
  have hnb : ∀ n s, nx = some n → s ∈ segsOf tk → Sep n s := hS.nextBg
  have hbb : List.Pairwise Sep (segsOf tk) := hS.bgBg
  have hAv : ∀ i ∈ issued,
      ¬ avail i ⟨cur?, nx, nr, ldg, tk⟩ ⟨m, st, fails, calls⟩ := hA
  cases cur? with
  | none => exact ⟨hS, hN, hA⟩
  | some c =>
      have hc0 := hcur c rfl
      have hcC0 : c.Base < c.Max := hcC c rfl
      by_cases h1 : c.Cursor + 1 ≤ c.Max
      · -- fast path
        have hnid : NextID ⟨some c, nx, nr, ldg, tk⟩ ⟨m, st, fails, calls⟩
            = ((c.Cursor + 1, none),
               CheckAndLoadNext ⟨some ({ c with Cursor := c.Cursor + 1 }), nx, nr, ldg, tk⟩,
               ⟨m, st, fails, calls⟩) := by
          unfold NextID
          dsimp only
          rw [if_pos h1]
        have hgoal : ∀ (ld' : Bool) (tk' : List BgTask), segsOf tk' = segsOf tk →
            UInv ⟨⟨some ({ c with Cursor := c.Cursor + 1 }), nx, nr, ld', tk'⟩,
              ⟨m, st, fails, calls⟩, issued ++ [c.Cursor + 1]⟩ := by
          intro ld' tk' hseg
          have hidav : avail (c.Cursor + 1) ⟨some c, nx, nr, ldg, tk⟩ ⟨m, st, fails, calls⟩ :=
            Or.inl ⟨c, rfl, ⟨by omega, h1⟩⟩
          have hidnew : (c.Cursor + 1) ∉ issued := fun hmem => hAv _ hmem hidav
          have hic : inChunk (c.Cursor + 1) c := ⟨by omega, h1⟩
          refine ⟨?_, nodup_append_new issued _ hN hidnew, ?_⟩
          · refine
              { stepPos := hst
                curOk := ?_
                curChunk := ?_
                nextOk := hnext
                bgOk := ?_
                curNext := ?_
                curBg := ?_
                nextBg := ?_
                bgBg := ?_ }
            · intro c' hc'
              cases Option.some.inj hc'
              exact ⟨show c.Base ≤ c.Cursor + 1 by omega, show c.Max ≤ m from hc0.2⟩
            · intro c' hc'
              cases Option.some.inj hc'
              exact show c.Base < c.Max from hcC0
            · intro s hs
              rw [hseg] at hs
              exact hbg s hs
            · intro c' n hc' hn
              cases Option.some.inj hc'
              exact hcn c n rfl hn
            · intro c' s hc' hs
              cases Option.some.inj hc'
              rw [hseg] at hs
              exact hcb c s rfl hs
            · intro n s hn hs
              rw [hseg] at hs
              exact hnb n s hn hs
            · rw [show segsOf tk' = segsOf tk from hseg]
              exact hbb
          · intro i hi hav
            rcases List.mem_append.mp hi with hi | hi
            · refine hAv i hi ?_
              rcases hav with ⟨c', hc', hr⟩ | (⟨n, hn, hr⟩ | (⟨s, hs, hr⟩ | htail))
              · cases Option.some.inj hc'
                have hr1 : c.Cursor + 1 < i := hr.1
                exact Or.inl ⟨c, rfl, ⟨by omega, hr.2⟩⟩
              · exact Or.inr (Or.inl ⟨n, hn, hr⟩)
              · rw [hseg] at hs
                exact Or.inr (Or.inr (Or.inl ⟨s, hs, hr⟩))
              · exact Or.inr (Or.inr (Or.inr htail))
            · have hieq : i = c.Cursor + 1 := List.mem_singleton.mp hi
              subst hieq
              rcases hav with ⟨c', hc', hr⟩ | (⟨n, hn, hr⟩ | (⟨s, hs, hr⟩ | htail))
              · cases Option.some.inj hc'
                have hr1 : c.Cursor + 1 < c.Cursor + 1 := hr.1
                omega
              · exact sep_not_both (hcn c n rfl hn) hic
                  (inRange_inChunk (hnext n hn).1 hr)
              · rw [hseg] at hs
                exact sep_not_both (hcb c s rfl hs) hic
                  (inRange_inChunk (hbg s hs).1 hr)
              · have htail' : m < c.Cursor + 1 := htail
                have : c.Max ≤ m := hc0.2
                omega
        unfold stepRun
        rw [hnid]
        dsimp only
        rcases checkAndLoadNext_flags
            ⟨some ({ c with Cursor := c.Cursor + 1 }), nx, nr, ldg, tk⟩ with hcal | ⟨-, hcal⟩
        · rw [hcal]
          exact hgoal ldg tk rfl
        · rw [hcal]
          exact hgoal true (tk ++ [BgTask.spawned]) (segsOf_spawn tk)
      · -- slow path
        have h2 : ¬ (c.Cursor + 1 + 1 ≤ c.Max) := by omega
        have herr : ∀ (fs : List (Option String)),
            UInv ⟨⟨some ({ c with Cursor := c.Cursor + 1 + 1 }), nx, nr, ldg, tk⟩,
              ⟨m, st, fs, calls + 1⟩, issued⟩ := by
          intro fs
          refine ⟨?_, hN, ?_⟩
          · refine
              { stepPos := hst
                curOk := ?_
                curChunk := ?_
                nextOk := hnext
                bgOk := hbg
                curNext := ?_
                curBg := ?_
                nextBg := hnb
                bgBg := hbb }
            · intro c' hc'
              cases Option.some.inj hc'
              exact ⟨show c.Base ≤ c.Cursor + 1 + 1 by omega, show c.Max ≤ m from hc0.2⟩
            · intro c' hc'
              cases Option.some.inj hc'
              exact show c.Base < c.Max from hcC0
            · intro c' n hc' hn
              cases Option.some.inj hc'
              exact hcn c n rfl hn
            · intro c' s hc' hs
              cases Option.some.inj hc'
              exact hcb c s rfl hs
          · intro i hi hav
            refine hAv i hi ?_
            rcases hav with ⟨c', hc', hr⟩ | (⟨n, hn, hr⟩ | (⟨s, hs, hr⟩ | htail))
            · cases Option.some.inj hc'
              have hr1 : c.Cursor + 1 + 1 < i := hr.1
              exact Or.inl ⟨c, rfl, ⟨by omega, hr.2⟩⟩
            · exact Or.inr (Or.inl ⟨n, hn, hr⟩)
            · exact Or.inr (Or.inr (Or.inl ⟨s, hs, hr⟩))
            · exact Or.inr (Or.inr (Or.inr htail))
        have hok : ∀ (fs : List (Option String)),
            UInv ⟨⟨some ⟨m + st - st, m + st, st, m + st - st + 1⟩, none, false, ldg, tk⟩,
              ⟨m + st, st, fs, calls + 1⟩, issued ++ [m + st - st + 1]⟩ := by
          intro fs
          have hidnew : (m + st - st + 1) ∉ issued := fun hmem =>
            hAv _ hmem (Or.inr (Or.inr (Or.inr (show m < m + st - st + 1 by omega))))
          refine ⟨?_, nodup_append_new issued _ hN hidnew, ?_⟩
          · refine
              { stepPos := hst
                curOk := ?_
                curChunk := ?_
                nextOk := fun n hn => Option.noConfusion hn
                bgOk := ?_
                curNext := fun c' n hc' hn => Option.noConfusion hn
                curBg := ?_
                nextBg := fun n s hn hs => Option.noConfusion hn
                bgBg := hbb }
            · intro c' hc'
              cases Option.some.inj hc'
              exact ⟨show m + st - st ≤ m + st - st + 1 by omega,
                show m + st ≤ m + st from le_refl _⟩
            · intro c' hc'
              cases Option.some.inj hc'
              exact show m + st - st < m + st by omega
            · intro s hs
              obtain ⟨hsb, hsm, hsc⟩ := hbg s hs
              exact ⟨hsb, show s.Max ≤ m + st by omega, hsc⟩
            · intro c' s hc' hs
              cases Option.some.inj hc'
              obtain ⟨-, hsm, -⟩ := hbg s hs
              exact Or.inr (show s.Max ≤ m + st - st by omega)
          · intro i hi hav
            rcases List.mem_append.mp hi with hi | hi
            · refine hAv i hi ?_
              rcases hav with ⟨c', hc', hr⟩ | (⟨n, hn, hr⟩ | (⟨s, hs, hr⟩ | htail))
              · cases Option.some.inj hc'
                have hr1 : m + st - st + 1 < i := hr.1
                exact Or.inr (Or.inr (Or.inr (show m < i by omega)))
              · exact Option.noConfusion hn
              · exact Or.inr (Or.inr (Or.inl ⟨s, hs, hr⟩))
              · have htail' : m + st < i := htail
                exact Or.inr (Or.inr (Or.inr (show m < i by omega)))
            · have hieq : i = m + st - st + 1 := List.mem_singleton.mp hi
              subst hieq
              rcases hav with ⟨c', hc', hr⟩ | (⟨n, hn, hr⟩ | (⟨s, hs, hr⟩ | htail))
              · cases Option.some.inj hc'
                have hr1 : m + st - st + 1 < m + st - st + 1 := hr.1
                omega
              · exact Option.noConfusion hn
              · obtain ⟨-, hsm, -⟩ := hbg s hs
                have hr2 : m + st - st + 1 ≤ s.Max := hr.2
                omega
              · have htail' : m + st < m + st - st + 1 := htail
                omega
        have hprom : ∀ n, nx = some n →
            UInv ⟨⟨some ({ n with Cursor := n.Cursor + 1 }), none, false, ldg, tk⟩,
              ⟨m, st, fails, calls⟩, issued ++ [n.Cursor + 1]⟩ := by
          intro n hn
          obtain ⟨hnb1, hnm, hncm⟩ := hnext n hn
          have hidav : avail (n.Cursor + 1) ⟨some c, nx, nr, ldg, tk⟩ ⟨m, st, fails, calls⟩ :=
            Or.inr (Or.inl ⟨n, hn, ⟨by omega, by omega⟩⟩)
          have hidnew : (n.Cursor + 1) ∉ issued := fun hmem => hAv _ hmem hidav
          have hic : inChunk (n.Cursor + 1) n := ⟨by omega, by omega⟩
          refine ⟨?_, nodup_append_new issued _ hN hidnew, ?_⟩
          · refine
              { stepPos := hst
                curOk := ?_
                curChunk := ?_
                nextOk := fun n' hn' => Option.noConfusion hn'
                bgOk := hbg
                curNext := fun c' n' hc' hn' => Option.noConfusion hn'
                curBg := ?_
                nextBg := fun n' s hn' hs => Option.noConfusion hn'
                bgBg := hbb }
            · intro c' hc'
              cases Option.some.inj hc'
              exact ⟨show n.Base ≤ n.Cursor + 1 by omega, show n.Max ≤ m from hnm⟩
            · intro c' hc'
              cases Option.some.inj hc'
              exact show n.Base < n.Max by omega
            · intro c' s hc' hs
              cases Option.some.inj hc'
              exact hnb n s hn hs
          · intro i hi hav
            rcases List.mem_append.mp hi with hi | hi
            · refine hAv i hi ?_
              rcases hav with ⟨c', hc', hr⟩ | (⟨n', hn', hr⟩ | (⟨s, hs, hr⟩ | htail))
              · cases Option.some.inj hc'
                have hr1 : n.Cursor + 1 < i := hr.1
                exact Or.inr (Or.inl ⟨n, hn, ⟨by omega, hr.2⟩⟩)
              · exact Option.noConfusion hn'
              · exact Or.inr (Or.inr (Or.inl ⟨s, hs, hr⟩))
              · exact Or.inr (Or.inr (Or.inr htail))
            · have hieq : i = n.Cursor + 1 := List.mem_singleton.mp hi
              subst hieq
              rcases hav with ⟨c', hc', hr⟩ | (⟨n', hn', hr⟩ | (⟨s, hs, hr⟩ | htail))
              · cases Option.some.inj hc'
                have hr1 : n.Cursor + 1 < n.Cursor + 1 := hr.1
                omega
              · exact Option.noConfusion hn'
              · exact sep_not_both (hnb n s hn hs) hic (inRange_inChunk (hbg s hs).1 hr)
              · have htail' : m < n.Cursor + 1 := htail
                omega
        unfold stepRun
        cases nr with
        | true =>
            cases nx with
            | some n =>
                have hnid : NextID ⟨some c, some n, true, ldg, tk⟩ ⟨m, st, fails, calls⟩
                    = ((n.Cursor + 1, none),
                       ⟨some ({ n with Cursor := n.Cursor + 1 }), none, false, ldg, tk⟩,
                       ⟨m, st, fails, calls⟩) := by
                  unfold NextID
                  dsimp only
                  rw [if_neg h1, if_neg h2]
                rw [hnid]
                exact hprom n rfl
            | none =>
                cases fails with
                | nil =>
                    have hnid : NextID ⟨some c, none, true, ldg, tk⟩ ⟨m, st, [], calls⟩
                        = ((m + st - st + 1, none),
                           ⟨some ⟨m + st - st, m + st, st, m + st - st + 1⟩, none, false,
                             ldg, tk⟩,
                           ⟨m + st, st, [], calls + 1⟩) := by
                      unfold NextID FetchNextSegment
                      dsimp only
                      rw [if_neg h1, if_neg h2]
                    rw [hnid]
                    exact hok []
                | cons f fs =>
                    cases f with
                    | some e =>
                        have hnid : NextID ⟨some c, none, true, ldg, tk⟩
                            ⟨m, st, some e :: fs, calls⟩
                            = ((0, some e),
                               ⟨some ({ c with Cursor := c.Cursor + 1 + 1 }), none, true,
                                 ldg, tk⟩,
                               ⟨m, st, fs, calls + 1⟩) := by
                          unfold NextID FetchNextSegment
                          dsimp only
                          rw [if_neg h1, if_neg h2]
                        rw [hnid]
                        exact herr fs
                    | none =>
                        have hnid : NextID ⟨some c, none, true, ldg, tk⟩
                            ⟨m, st, none :: fs, calls⟩
                            = ((m + st - st + 1, none),
                               ⟨some ⟨m + st - st, m + st, st, m + st - st + 1⟩, none, false,
                                 ldg, tk⟩,
                               ⟨m + st, st, fs, calls + 1⟩) := by
                          unfold NextID FetchNextSegment
                          dsimp only
                          rw [if_neg h1, if_neg h2]
                        rw [hnid]
                        exact hok fs
        | false =>
            cases fails with
            | nil =>
                have hnid : NextID ⟨some c, nx, false, ldg, tk⟩ ⟨m, st, [], calls⟩
                    = ((m + st - st + 1, none),
                       ⟨some ⟨m + st - st, m + st, st, m + st - st + 1⟩, none, false,
                         ldg, tk⟩,
                       ⟨m + st, st, [], calls + 1⟩) := by
                  unfold NextID FetchNextSegment
                  dsimp only
                  rw [if_neg h1, if_neg h2]
                rw [hnid]
                exact hok []
            | cons f fs =>
                cases f with
                | some e =>
                    have hnid : NextID ⟨some c, nx, false, ldg, tk⟩ ⟨m, st, some e :: fs, calls⟩
                        = ((0, some e),
                           ⟨some ({ c with Cursor := c.Cursor + 1 + 1 }), nx, false, ldg, tk⟩,
                           ⟨m, st, fs, calls + 1⟩) := by
                      unfold NextID FetchNextSegment
                      dsimp only
                      rw [if_neg h1, if_neg h2]
                    rw [hnid]
                    exact herr fs
                | none =>
                    have hnid : NextID ⟨some c, nx, false, ldg, tk⟩ ⟨m, st, none :: fs, calls⟩
                        = ((m + st - st + 1, none),
                           ⟨some ⟨m + st - st, m + st, st, m + st - st + 1⟩, none, false,
                             ldg, tk⟩,
                           ⟨m + st, st, fs, calls + 1⟩) := by
                      unfold NextID FetchNextSegment
                      dsimp only
                      rw [if_neg h1, if_neg h2]
                    rw [hnid]
                    exact hok fs

theorem uInv_step (r : RunState) (e : Ev) (h : UInv r) : UInv (stepRun r e) := by
  cases e with
  | callNext => exact uInv_callNext r h
  | bgFetch => exact uInv_bgFetch r h
  | bgInstall => exact uInv_bgInstall r h

theorem uInv_run (evs : List Ev) (r : RunState) (h : UInv r) : UInv (run r evs) := by
  induction evs generalizing r with
  | nil => exact h
  | cons e es ih => exact ih _ (uInv_step r e h)

theorem uInv_initRun (m st : Int) (fails : List (Option String)) (hst : 1 ≤ st) :
    UInv (initRun m st fails) := by
  have hfailcase : ∀ (fs : List (Option String)) (cl : Nat),
      UInv ⟨NewDoubleBuffer, ⟨m, st, fs, cl⟩, []⟩ := by
    intro fs cl
    refine ⟨?_, List.nodup_nil, fun i hi => absurd hi (List.not_mem_nil i)⟩
    exact
      { stepPos := hst
        curOk := fun c hc => Option.noConfusion hc
        curChunk := fun c hc => Option.noConfusion hc
        nextOk := fun n hn => Option.noConfusion hn
        bgOk := fun s hs => absurd hs (List.not_mem_nil s)
        curNext := fun c n hc hn => Option.noConfusion hc
        curBg := fun c s hc hs => Option.noConfusion hc
        nextBg := fun n s hn hs => Option.noConfusion hn
        bgBg := List.Pairwise.nil }
  have hokcase : ∀ (fs : List (Option String)) (cl : Nat),
      UInv ⟨⟨some ⟨m + st - st, m + st, st, m + st - st⟩, none, false, false, []⟩,
        ⟨m + st, st, fs, cl⟩, []⟩ := by
    intro fs cl
    refine ⟨?_, List.nodup_nil, fun i hi => absurd hi (List.not_mem_nil i)⟩
    refine
      { stepPos := hst
        curOk := ?_
        curChunk := ?_
        nextOk := fun n hn => Option.noConfusion hn
        bgOk := fun s hs => absurd hs (List.not_mem_nil s)
        curNext := fun c n hc hn => Option.noConfusion hn
        curBg := fun c s hc hs => absurd hs (List.not_mem_nil s)
        nextBg := fun n s hn hs => Option.noConfusion hn
        bgBg := List.Pairwise.nil }
    · intro c hc
      cases Option.some.inj hc
      exact ⟨le_refl _, le_refl _⟩
    · intro c hc
      cases Option.some.inj hc
      exact show m + st - st < m + st by omega
  unfold initRun Init FetchNextSegment mkDB
  cases fails with
  | nil => exact hokcase [] 1
  | cons f fs =>
      cases f with
      | some e => exact hfailcase fs 1
      | none => exact hokcase fs 1

/-- C1: for any sequence of successful NextID calls against one
DoubleBuffer — in any interleaving with background prefetch fetches and
installs — all returned ids are pairwise distinct.  The hypothesis
`1 ≤ st` states that the store's reservation step is positive, which is
what makes the store hand out pairwise disjoint (base, max] ranges. -/
theorem c1_uniqueness (m st : Int) (fails : List (Option String)) (evs : List Ev)
    (hst : 1 ≤ st) :
    (run (initRun m st fails) evs).issued.Nodup :=
  (uInv_run evs (initRun m st fails) (uInv_initRun m st fails hst)).2.1

theorem fetchNextSegment_ok_shape (db : LeafDB) (seg : Segment) (db1 : LeafDB)
    (h : FetchNextSegment db = (FetchResult.ok seg, db1)) :
    seg = ⟨db.maxId + db.step - db.step, db.maxId + db.step, db.step,
           db.maxId + db.step - db.step⟩ ∧
    db1.maxId = db.maxId + db.step ∧ db1.step = db.step := by
  obtain ⟨m, st, fails, calls⟩ := db
  rcases fails with _ | ⟨f, fs⟩
  · unfold FetchNextSegment at h
    dsimp only at h
    obtain ⟨h1, h2⟩ := Prod.mk.injEq .. ▸ h
    exact ⟨(FetchResult.ok.injEq .. ▸ h1).symm ▸ rfl, by rw [← h2], by rw [← h2]⟩
  · cases f with
    | some e =>
        unfold FetchNextSegment at h
        dsimp only at h
        exact absurd (congrArg Prod.fst h) (by simp)
    | none =>
        unfold FetchNextSegment at h
        dsimp only at h
        obtain ⟨h1, h2⟩ := Prod.mk.injEq .. ▸ h
        exact ⟨(FetchResult.ok.injEq .. ▸ h1).symm ▸ rfl, by rw [← h2], by rw [← h2]⟩

/-- Exhaustive enumeration of NextID's behaviours. -/
theorem nextID_cases (b : DoubleBuffer) (db : LeafDB) :
    (b.current = none ∧ NextID b db = ((0, some ("segment not initialized")), b, db)) ∨
    ∃ c, b.current = some c ∧
      ((c.Cursor + 1 ≤ c.Max ∧
        NextID b db = ((c.Cursor + 1, none),
          CheckAndLoadNext { b with current := some ({ c with Cursor := c.Cursor + 1 }) },
          db)) ∨
      (∃ n, ¬ (c.Cursor + 1 ≤ c.Max) ∧ b.nextReady = true ∧ b.next = some n ∧
        NextID b db = ((n.Cursor + 1, none),
          { b with current := some ({ n with Cursor := n.Cursor + 1 }), next := none,
                   nextReady := false }, db)) ∨
      (∃ seg db1, ¬ (c.Cursor + 1 ≤ c.Max) ∧
        FetchNextSegment db = (FetchResult.ok seg, db1) ∧
        NextID b db = ((seg.Cursor + 1, none),
          { b with current := some ({ seg with Cursor := seg.Cursor + 1 }), next := none,
                   nextReady := false }, db1)) ∨
      (∃ e db1, ¬ (c.Cursor + 1 ≤ c.Max) ∧
        FetchNextSegment db = (FetchResult.fail e, db1) ∧
        NextID b db = ((0, some e),
          { b with current := some ({ c with Cursor := c.Cursor + 1 + 1 }) }, db1))) := by
  obtain ⟨cur?, nx, nr, ldg, tk⟩ := b
  cases cur? with
  | none => exact Or.inl ⟨rfl, rfl⟩
  | some c =>
      refine Or.inr ⟨c, rfl, ?_⟩
      by_cases h1 : c.Cursor + 1 ≤ c.Max
      · refine Or.inl ⟨h1, ?_⟩
        unfold NextID
        dsimp only
        rw [if_pos h1]
      · have h2 : ¬ (c.Cursor + 1 + 1 ≤ c.Max) := by omega
        cases nr with
        | true =>
            cases nx with
            | some n =>
                refine Or.inr (Or.inl ⟨n, h1, rfl, rfl, ?_⟩)
                unfold NextID
                dsimp only
                rw [if_neg h1, if_neg h2]
            | none =>
                rcases hfd : FetchNextSegment db with ⟨fr, db1⟩
                cases fr with
                | ok seg =>
                    refine Or.inr (Or.inr (Or.inl ⟨seg, db1, h1, rfl, ?_⟩))
                    unfold NextID
                    dsimp only
                    rw [if_neg h1, if_neg h2, hfd]
                | fail e =>
                    refine Or.inr (Or.inr (Or.inr ⟨e, db1, h1, rfl, ?_⟩))
                    unfold NextID
                    dsimp only
                    rw [if_neg h1, if_neg h2, hfd]
        | false =>
            rcases hfd : FetchNextSegment db with ⟨fr, db1⟩
            cases fr with
            | ok seg =>
                refine Or.inr (Or.inr (Or.inl ⟨seg, db1, h1, rfl, ?_⟩))
                unfold NextID
                dsimp only
                rw [if_neg h1, if_neg h2, hfd]
            | fail e =>
                refine Or.inr (Or.inr (Or.inr ⟨e, db1, h1, rfl, ?_⟩))
                unfold NextID
                dsimp only
                rw [if_neg h1, if_neg h2, hfd]

theorem nextID_ok_bounds (b : DoubleBuffer) (db : LeafDB) (hSt : StInv b db)
    (id : Int) (b' : DoubleBuffer) (db' : LeafDB)
    (h : NextID b db = ((id, none), b', db')) :
    (∃ c', b'.current = some c' ∧ c'.Base < id ∧ id ≤ c'.Max) ∧
    (∀ c, b.current = some c → c.Max ≤ c.Cursor → ¬ (c.Base < id ∧ id ≤ c.Max)) := by
  rcases nextID_cases b db with ⟨hnone, heq⟩ | ⟨c, hc, hcase⟩
  · have hbad : (some ("segment not initialized") : Option String) = none :=
      congrArg (fun x => x.1.2) (heq.symm.trans h)
    exact Option.noConfusion hbad
  · have hc1 := hSt.curOk c hc
    rcases hcase with ⟨h1, heq⟩ | (⟨n, h1, hnr, hnx, heq⟩ |
        (⟨seg, db1, h1, hfd, heq⟩ | ⟨e, db1, h1, hfd, heq⟩))
    · have hid : c.Cursor + 1 = id := congrArg (fun x => x.1.1) (heq.symm.trans h)
      have hb' : (CheckAndLoadNext
          { b with current := some ({ c with Cursor := c.Cursor + 1 }) }) = b' :=
        congrArg (fun x => x.2.1) (heq.symm.trans h)
      subst hid
      constructor
      · have hcc : (CheckAndLoadNext
            { b with current := some ({ c with Cursor := c.Cursor + 1 }) }).current
            = some ({ c with Cursor := c.Cursor + 1 }) := by
          rcases checkAndLoadNext_flags
              { b with current := some ({ c with Cursor := c.Cursor + 1 }) } with
            hcal | ⟨-, hcal⟩ <;> rw [hcal]
        refine ⟨{ c with Cursor := c.Cursor + 1 }, ?_, ?_, ?_⟩
        · rw [← hb']
          exact hcc
        · show c.Base < c.Cursor + 1
          omega
        · exact h1
      · intro c'' hc'' hexh
        have hcc'' : c = c'' := Option.some.inj (hc.symm.trans hc'')
        subst hcc''
        exact absurd h1 (by omega)
    · have hid : n.Cursor + 1 = id := congrArg (fun x => x.1.1) (heq.symm.trans h)
      have hb' : ({ b with current := some ({ n with Cursor := n.Cursor + 1 }),
                           next := none, nextReady := false }) = b' :=
        congrArg (fun x => x.2.1) (heq.symm.trans h)
      subst hid
      obtain ⟨hn1, hn2, hn3⟩ := hSt.nextOk n hnx
      constructor
      · refine ⟨{ n with Cursor := n.Cursor + 1 }, ?_, ?_, ?_⟩
        · rw [← hb']
        · show n.Base < n.Cursor + 1
          omega
        · show n.Cursor + 1 ≤ n.Max
          omega
      · intro c'' hc'' hexh hin
        have hcc'' : c = c'' := Option.some.inj (hc.symm.trans hc'')
        subst hcc''
        exact sep_not_both (hSt.curNext c n hc hnx) ⟨hin.1, hin.2⟩
          ⟨by omega, by omega⟩
    · have hid : seg.Cursor + 1 = id := congrArg (fun x => x.1.1) (heq.symm.trans h)
      have hb' : ({ b with current := some ({ seg with Cursor := seg.Cursor + 1 }),
                           next := none, nextReady := false }) = b' :=
        congrArg (fun x => x.2.1) (heq.symm.trans h)
      subst hid
      obtain ⟨hseg, hdb1m, hdb1s⟩ := fetchNextSegment_ok_shape db seg db1 hfd
      have hstp : (1 : Int) ≤ db.step := hSt.stepPos
      subst hseg
      constructor
      · refine ⟨⟨db.maxId + db.step - db.step, db.maxId + db.step, db.step,
                 db.maxId + db.step - db.step + 1⟩, ?_, ?_, ?_⟩
        · rw [← hb']
        · show db.maxId + db.step - db.step < db.maxId + db.step - db.step + 1
          omega
        · show db.maxId + db.step - db.step + 1 ≤ db.maxId + db.step
          omega
      · intro c'' hc'' hexh hin
        have hcm : c''.Max ≤ db.maxId := (hSt.curOk c'' hc'').2
        have hin2 : db.maxId + db.step - db.step + 1 ≤ c''.Max := hin.2
        omega
    · have hbad : (some e : Option String) = none :=
        congrArg (fun x => x.1.2) (heq.symm.trans h)
      exact Option.noConfusion hbad

theorem nextID_cursor_mono (b : DoubleBuffer) (db : LeafDB) (hSt : StInv b db)
    (c c' : Segment) (hc : b.current = some c)
    (hc' : (NextID b db).2.1.current = some c')
    (hB : c'.Base = c.Base) (hM : c'.Max = c.Max) : c.Cursor ≤ c'.Cursor := by
  rcases nextID_cases b db with ⟨hnone, heq⟩ | ⟨c0, hc0, hcase⟩
  · rw [hnone] at hc
    exact Option.noConfusion hc
  · have hcc0 : c0 = c := Option.some.inj (hc0.symm.trans hc)
    subst hcc0
    have hchunk := hSt.curChunk c0 hc0
    have hcur := hSt.curOk c0 hc0
    rcases hcase with ⟨h1, heq⟩ | (⟨n, h1, hnr, hnx, heq⟩ |
        (⟨seg, db1, h1, hfd, heq⟩ | ⟨e, db1, h1, hfd, heq⟩))
    · rw [heq] at hc'
      dsimp only at hc'
      have hcc : (CheckAndLoadNext
          { b with current := some ({ c0 with Cursor := c0.Cursor + 1 }) }).current
          = some ({ c0 with Cursor := c0.Cursor + 1 }) := by
        rcases checkAndLoadNext_flags
            { b with current := some ({ c0 with Cursor := c0.Cursor + 1 }) } with
          hcal | ⟨-, hcal⟩ <;> rw [hcal]
      have : ({ c0 with Cursor := c0.Cursor + 1 } : Segment) = c' :=
        Option.some.inj (hcc.symm.trans hc')
      rw [← this]
      show c0.Cursor ≤ c0.Cursor + 1
      omega
    · rw [heq] at hc'
      dsimp only at hc'
      have hn' : ({ n with Cursor := n.Cursor + 1 } : Segment) = c' :=
        Option.some.inj hc'
      have hnB : n.Base = c0.Base := by rw [← hB, ← hn']
      have hnM : n.Max = c0.Max := by rw [← hM, ← hn']
      rcases hSt.curNext c0 n hc0 hnx with hsep | hsep <;> omega
    · rw [heq] at hc'
      dsimp only at hc'
      obtain ⟨hseg, hdb1m, hdb1s⟩ := fetchNextSegment_ok_shape db seg db1 hfd
      subst hseg
      have hs' : ({ ( ⟨db.maxId + db.step - db.step, db.maxId + db.step, db.step,
          db.maxId + db.step - db.step⟩ : Segment) with
            Cursor := db.maxId + db.step - db.step + 1 } : Segment) = c' :=
        Option.some.inj hc'
      have hstp : (1 : Int) ≤ db.step := hSt.stepPos
      have hBb : db.maxId + db.step - db.step = c0.Base := by rw [← hB, ← hs']
      have hMb : db.maxId + db.step = c0.Max := by rw [← hM, ← hs']
      have hcm : c0.Max ≤ db.maxId := hcur.2
      omega
    · rw [heq] at hc'
      dsimp only at hc'
      have hc2 : ({ c0 with Cursor := c0.Cursor + 1 + 1 } : Segment) = c' :=
        Option.some.inj hc'
      rw [← hc2]
      show c0.Cursor ≤ c0.Cursor + 1 + 1
      omega

/-- C7: along every execution, the current segment satisfies
base ≤ cursor; every id successfully returned by a NextID call from a
reachable state lies strictly above its serving segment's base and at most
at its max (so values past max are never returned); and once the current
segment is exhausted (an increment has pushed its cursor to or past max),
no NextID call returns an id drawn from that segment's range.  The current
segment's cursor never decreases across a call (when the call keeps the
same segment installed). -/
theorem c7_segment_range_invariant (m st : Int) (fails : List (Option String))
    (evs : List Ev) (hst : 1 ≤ st) :
    (∀ c, (run (initRun m st fails) evs).buf.current = some c → c.Base ≤ c.Cursor) ∧
    (∀ id b' db',
        NextID (run (initRun m st fails) evs).buf (run (initRun m st fails) evs).db
          = ((id, none), b', db') →
        (∃ c', b'.current = some c' ∧ c'.Base < id ∧ id ≤ c'.Max) ∧
        (∀ c, (run (initRun m st fails) evs).buf.current = some c →
            c.Max ≤ c.Cursor → ¬ (c.Base < id ∧ id ≤ c.Max))) ∧
    (∀ c c', (run (initRun m st fails) evs).buf.current = some c →
        (stepRun (run (initRun m st fails) evs) Ev.callNext).buf.current = some c' →
        c'.Base = c.Base → c'.Max = c.Max → c.Cursor ≤ c'.Cursor) := by
  obtain ⟨hS, -, -⟩ := uInv_run evs (initRun m st fails) (uInv_initRun m st fails hst)
  refine ⟨fun c hc => (hS.curOk c hc).1, ?_, ?_⟩
  · intro id b' db' h
    exact nextID_ok_bounds _ _ hS id b' db' h
  · intro c c' hc hstep hB hM
    rw [stepRun_callNext_buf] at hstep
    exact nextID_cursor_mono _ _ hS c c' hc hstep hB hM

theorem c7_segment_range_invariant_witness :
    (∀ c, (run (initRun 0 5 []) [Ev.callNext]).buf.current = some c →
        c.Base ≤ c.Cursor) ∧
    (∀ id b' db',
        NextID (run (initRun 0 5 []) [Ev.callNext]).buf
            (run (initRun 0 5 []) [Ev.callNext]).db = ((id, none), b', db') →
        (∃ c', b'.current = some c' ∧ c'.Base < id ∧ id ≤ c'.Max) ∧
        (∀ c, (run (initRun 0 5 []) [Ev.callNext]).buf.current = some c →
            c.Max ≤ c.Cursor → ¬ (c.Base < id ∧ id ≤ c.Max))) ∧
    (∀ c c', (run (initRun 0 5 []) [Ev.callNext]).buf.current = some c →
        (stepRun (run (initRun 0 5 []) [Ev.callNext]) Ev.callNext).buf.current = some c' →
        c'.Base = c.Base → c'.Max = c.Max → c.Cursor ≤ c'.Cursor) :=
  c7_segment_range_invariant 0 5 [] [Ev.callNext] (by norm_num)

/-! Machinery for the amended monotonicity claim (C2): runs in which each
background fetch is immediately followed by its install. -/

/-- Traces in which no other event interleaves between a background task's
store fetch and its install. -/
def bgAtomic : List Ev → Bool
  | [] => true
  | Ev.callNext :: rest => bgAtomic rest
  | Ev.bgInstall :: rest => bgAtomic rest
  | Ev.bgFetch :: Ev.bgInstall :: rest => bgAtomic rest
  | Ev.bgFetch :: _ => false

/-- Invariant for monotonicity: issued ids are strictly increasing and all
bounded by the current segment's cursor and max; a staged next segment lies
entirely above the current segment; no fetched-but-uninstalled background
segment exists. -/
structure MonoInv (r : RunState) : Prop where
  chain : List.Pairwise (fun a b => a < b) r.issued
  stepPos : 1 ≤ r.db.step
  tasksSpawned : ∀ t ∈ r.buf.bgTasks, t = BgTask.spawned
  curHi : ∀ c, r.buf.current = some c →
      (∀ i ∈ r.issued, i ≤ c.Cursor ∧ i ≤ c.Max) ∧ c.Max ≤ r.db.maxId
  nextHi : ∀ n, r.buf.next = some n →
      (∀ c, r.buf.current = some c → c.Max ≤ n.Cursor) ∧ n.Cursor < n.Max ∧
        n.Max ≤ r.db.maxId

theorem fetchNextSegment_fail_shape (db : LeafDB) (e : String) (db1 : LeafDB)
    (h : FetchNextSegment db = (FetchResult.fail e, db1)) :
    db1.maxId = db.maxId ∧ db1.step = db.step := by
  obtain ⟨m, st, fails, calls⟩ := db
  rcases fails with _ | ⟨f, fs⟩
  · unfold FetchNextSegment at h
    dsimp only at h
    exact absurd (congrArg Prod.fst h) (by simp)
  · cases f with
    | some e' =>
        unfold FetchNextSegment at h
        dsimp only at h
        have h2 : db1 = ({ maxId := m, step := st, fails := fs, calls := calls + 1 } : LeafDB) :=
          (congrArg Prod.snd h).symm
        rw [h2]
        exact ⟨rfl, rfl⟩
    | none =>
        unfold FetchNextSegment at h
        dsimp only at h
        exact absurd (congrArg Prod.fst h) (by simp)

theorem pairwise_append_new (l : List Int) (a : Int)
    (hl : List.Pairwise (fun a b => a < b) l) (ha : ∀ i ∈ l, i < a) :
    List.Pairwise (fun a b => a < b) (l ++ [a]) :=
  List.pairwise_append.mpr ⟨hl, List.pairwise_singleton _ _,
    fun x hx y hy => (List.mem_singleton.mp hy) ▸ ha x hx⟩

theorem monoInv_callNext (r : RunState) (h : MonoInv r) : MonoInv (stepRun r Ev.callNext) := by
  rcases nextID_cases r.buf r.db with ⟨hnone, heq⟩ | ⟨c, hc, hcase⟩
  · unfold stepRun
    rw [heq]
    exact ⟨h.chain, h.stepPos, h.tasksSpawned, h.curHi, h.nextHi⟩
  · have hcur := h.curHi c hc
    rcases hcase with ⟨h1, heq⟩ | (⟨n, h1, hnr, hnx, heq⟩ |
        (⟨seg, db1, h1, hfd, heq⟩ | ⟨e, db1, h1, hfd, heq⟩))
    · -- fast path
      unfold stepRun
      rw [heq]
      dsimp only
      have hlt : ∀ i ∈ r.issued, i < c.Cursor + 1 := fun i hi => by
        have := (hcur.1 i hi).1
        omega
      rcases checkAndLoadNext_flags
          { r.buf with current := some ({ c with Cursor := c.Cursor + 1 }) } with
        hcal | ⟨-, hcal⟩ <;> rw [hcal] <;>
        refine
          { chain := pairwise_append_new _ _ h.chain hlt
            stepPos := h.stepPos
            tasksSpawned := ?_
            curHi := ?_
            nextHi := ?_ }
      · exact h.tasksSpawned
      · intro c' hc'
        cases Option.some.inj hc'
        refine ⟨?_, show c.Max ≤ r.db.maxId from hcur.2⟩
        intro i hi
        rcases List.mem_append.mp hi with hi | hi
        · have := hcur.1 i hi
          exact ⟨show i ≤ c.Cursor + 1 by omega, this.2⟩
        · have hieq : i = c.Cursor + 1 := List.mem_singleton.mp hi
          exact ⟨show i ≤ c.Cursor + 1 by omega, by rw [hieq]; exact h1⟩
      · intro n hn
        obtain ⟨hn1, hn2, hn3⟩ := h.nextHi n hn
        refine ⟨?_, hn2, hn3⟩
        intro c' hc'
        cases Option.some.inj hc'
        exact show c.Max ≤ n.Cursor from hn1 c hc
      · intro t ht
        rcases List.mem_append.mp ht with ht | ht
        · exact h.tasksSpawned t ht
        · exact List.mem_singleton.mp ht
      · intro c' hc'
        cases Option.some.inj hc'
        refine ⟨?_, show c.Max ≤ r.db.maxId from hcur.2⟩
        intro i hi
        rcases List.mem_append.mp hi with hi | hi
        · have := hcur.1 i hi
          exact ⟨show i ≤ c.Cursor + 1 by omega, this.2⟩
        · have hieq : i = c.Cursor + 1 := List.mem_singleton.mp hi
          exact ⟨show i ≤ c.Cursor + 1 by omega, by rw [hieq]; exact h1⟩
      · intro n hn
        obtain ⟨hn1, hn2, hn3⟩ := h.nextHi n hn
        refine ⟨?_, hn2, hn3⟩
        intro c' hc'
        cases Option.some.inj hc'
        exact show c.Max ≤ n.Cursor from hn1 c hc
    · -- promotion
      unfold stepRun
      rw [heq]
      dsimp only
      obtain ⟨hn1, hn2, hn3⟩ := h.nextHi n hnx
      have hcm : c.Max ≤ n.Cursor := hn1 c hc
      have hlt : ∀ i ∈ r.issued, i < n.Cursor + 1 := fun i hi => by
        have := (hcur.1 i hi).2
        omega
      refine
        { chain := pairwise_append_new _ _ h.chain hlt
          stepPos := h.stepPos
          tasksSpawned := h.tasksSpawned
          curHi := ?_
          nextHi := fun n' hn' => Option.noConfusion hn' }
      intro c' hc'
      cases Option.some.inj hc'
      refine ⟨?_, show n.Max ≤ r.db.maxId from hn3⟩
      intro i hi
      rcases List.mem_append.mp hi with hi | hi
      · have := (hcur.1 i hi).2
        exact ⟨show i ≤ n.Cursor + 1 by omega, show i ≤ n.Max by omega⟩
      · have hieq : i = n.Cursor + 1 := List.mem_singleton.mp hi
        exact ⟨show i ≤ n.Cursor + 1 by omega, show i ≤ n.Max by omega⟩
    · -- synchronous fallback, success
      unfold stepRun
      rw [heq]
      dsimp only
      obtain ⟨hseg, hdb1m, hdb1s⟩ := fetchNextSegment_ok_shape r.db seg db1 hfd
      have hstp : (1 : Int) ≤ r.db.step := h.stepPos
      subst hseg
      have hlt : ∀ i ∈ r.issued, i < r.db.maxId + r.db.step - r.db.step + 1 := fun i hi => by
        have h2 := (hcur.1 i hi).2
        have h3 := hcur.2
        omega
      refine
        { chain := pairwise_append_new _ _ h.chain hlt
          stepPos := show (1 : Int) ≤ db1.step by omega
          tasksSpawned := h.tasksSpawned
          curHi := ?_
          nextHi := fun n' hn' => Option.noConfusion hn' }
      intro c' hc'
      cases Option.some.inj hc'
      refine ⟨?_, show r.db.maxId + r.db.step ≤ db1.maxId by omega⟩
      intro i hi
      rcases List.mem_append.mp hi with hi | hi
      · have h2 := (hcur.1 i hi).2
        have h3 := hcur.2
        exact ⟨show i ≤ r.db.maxId + r.db.step - r.db.step + 1 by omega,
          show i ≤ r.db.maxId + r.db.step by omega⟩
      · have hieq : i = r.db.maxId + r.db.step - r.db.step + 1 := List.mem_singleton.mp hi
        exact ⟨show i ≤ r.db.maxId + r.db.step - r.db.step + 1 by omega,
          show i ≤ r.db.maxId + r.db.step by omega⟩
    · -- synchronous fallback, failure
      unfold stepRun
      rw [heq]
      dsimp only
      obtain ⟨hdb1m, hdb1s⟩ := fetchNextSegment_fail_shape r.db e db1 hfd
      refine
        { chain := h.chain
          stepPos := show (1 : Int) ≤ db1.step by have := h.stepPos; omega
          tasksSpawned := h.tasksSpawned
          curHi := ?_
          nextHi := ?_ }
      · intro c' hc'
        cases Option.some.inj hc'
        refine ⟨?_, show c.Max ≤ db1.maxId by have := hcur.2; omega⟩
        intro i hi
        have := hcur.1 i hi
        exact ⟨show i ≤ c.Cursor + 1 + 1 by omega, this.2⟩
      · intro n hn
        obtain ⟨hn1, hn2, hn3⟩ := h.nextHi n hn
        refine ⟨?_, hn2, show n.Max ≤ db1.maxId by omega⟩
        intro c' hc'
        cases Option.some.inj hc'
        exact show c.Max ≤ n.Cursor from hn1 c hc

theorem monoInv_bgInstall (r : RunState) (h : MonoInv r) : MonoInv (stepRun r Ev.bgInstall) := by
  obtain ⟨⟨cur?, nx, nr, ldg, tk⟩, ⟨m, st, fails, calls⟩, iss⟩ := r
  rcases tk with _ | ⟨t, rest⟩
  · exact h
  · have ht : t = BgTask.spawned := h.tasksSpawned t (List.mem_cons_self t rest)
    subst ht
    exact h

theorem monoInv_bgPair (r : RunState) (h : MonoInv r) :
    MonoInv (stepRun (stepRun r Ev.bgFetch) Ev.bgInstall) := by
  obtain ⟨⟨cur?, nx, nr, ldg, tk⟩, ⟨m, st, fails, calls⟩, iss⟩ := r
  have hst : (1 : Int) ≤ st := h.stepPos
  rcases tk with _ | ⟨t, rest⟩
  · exact h
  · have ht : t = BgTask.spawned := h.tasksSpawned t (List.mem_cons_self t rest)
    subst ht
    have hrest : ∀ u ∈ rest, u = BgTask.spawned := fun u hu =>
      h.tasksSpawned u (List.mem_cons_of_mem _ hu)
    rcases fails with _ | ⟨f, fs⟩
    · refine
        { chain := h.chain
          stepPos := hst
          tasksSpawned := hrest
          curHi := ?_
          nextHi := ?_ }
      · intro c hc
        obtain ⟨h1, h2⟩ := h.curHi c hc
        have h2' : c.Max ≤ m := h2
        exact ⟨h1, show c.Max ≤ m + st by omega⟩
      · intro n hn
        cases Option.some.inj hn
        refine ⟨?_, show m + st - st < m + st by omega, show m + st ≤ m + st by omega⟩
        intro c hc
        have h2' : c.Max ≤ m := (h.curHi c hc).2
        show c.Max ≤ m + st - st
        omega
    · cases f with
      | some e =>
          refine
            { chain := h.chain
              stepPos := hst
              tasksSpawned := hrest
              curHi := ?_
              nextHi := ?_ }
          · intro c hc
            exact h.curHi c hc
          · intro n hn
            exact h.nextHi n hn
      | none =>
          refine
            { chain := h.chain
              stepPos := hst
              tasksSpawned := hrest
              curHi := ?_
              nextHi := ?_ }
          · intro c hc
            obtain ⟨h1, h2⟩ := h.curHi c hc
            have h2' : c.Max ≤ m := h2
            exact ⟨h1, show c.Max ≤ m + st by omega⟩
          · intro n hn
            cases Option.some.inj hn
            refine ⟨?_, show m + st - st < m + st by omega, show m + st ≤ m + st by omega⟩
            intro c hc
            have h2' : c.Max ≤ m := (h.curHi c hc).2
            show c.Max ≤ m + st - st
            omega

theorem monoInv_run : ∀ (evs : List Ev), bgAtomic evs = true →
    ∀ (r : RunState), MonoInv r → MonoInv (run r evs)
  | [], _, _, h => h
  | Ev.callNext :: rest, hb, r, h =>
      monoInv_run rest hb (stepRun r Ev.callNext) (monoInv_callNext r h)
  | Ev.bgInstall :: rest, hb, r, h =>
      monoInv_run rest hb (stepRun r Ev.bgInstall) (monoInv_bgInstall r h)
  | Ev.bgFetch :: Ev.bgInstall :: rest, hb, r, h =>
      monoInv_run rest hb (stepRun (stepRun r Ev.bgFetch) Ev.bgInstall) (monoInv_bgPair r h)
  | [Ev.bgFetch], hb, _, _ => Bool.noConfusion hb
  | Ev.bgFetch :: Ev.callNext :: _, hb, _, _ => Bool.noConfusion hb
  | Ev.bgFetch :: Ev.bgFetch :: _, hb, _, _ => Bool.noConfusion hb

theorem monoInv_initRun (m st : Int) (fails : List (Option String)) (hst : 1 ≤ st) :
    MonoInv (initRun m st fails) := by
  have hfailcase : ∀ (fs : List (Option String)) (cl : Nat),
      MonoInv ⟨NewDoubleBuffer, ⟨m, st, fs, cl⟩, []⟩ := by
    intro fs cl
    exact
      { chain := List.Pairwise.nil
        stepPos := hst
        tasksSpawned := fun t ht => absurd ht (List.not_mem_nil t)
        curHi := fun c hc => Option.noConfusion hc
        nextHi := fun n hn => Option.noConfusion hn }
  have hokcase : ∀ (fs : List (Option String)) (cl : Nat),
      MonoInv ⟨⟨some ⟨m + st - st, m + st, st, m + st - st⟩, none, false, false, []⟩,
        ⟨m + st, st, fs, cl⟩, []⟩ := by
    intro fs cl
    refine
      { chain := List.Pairwise.nil
        stepPos := hst
        tasksSpawned := fun t ht => absurd ht (List.not_mem_nil t)
        curHi := ?_
        nextHi := fun n hn => Option.noConfusion hn }
    intro c hc
    cases Option.some.inj hc
    exact ⟨fun i hi => absurd hi (List.not_mem_nil i), show m + st ≤ m + st from le_refl _⟩
  unfold initRun Init FetchNextSegment mkDB
  cases fails with
  | nil => exact hokcase [] 1
  | cons f fs =>
      cases f with
      | some e => exact hfailcase fs 1
      | none => exact hokcase fs 1

/-- C2 (amended): within one DoubleBuffer the returned ids are strictly
increasing provided every background prefetch's store fetch is immediately
followed by its install (no NextID call or second fetch interleaves between
the two halves of the goroutine); in the unrestricted interleaving the
original claim fails. -/
theorem c2_monotonicity_amended (m st : Int) (fails : List (Option String)) (evs : List Ev)
    (hst : 1 ≤ st) (hatomic : bgAtomic evs = true) :
    List.Pairwise (fun a b => a < b) (run (initRun m st fails) evs).issued :=
  (monoInv_run evs hatomic (initRun m st fails) (monoInv_initRun m st fails hst)).chain

theorem c2_monotonicity_amended_witness :
    (1 : Int) ≤ 5 ∧
    bgAtomic [Ev.callNext, Ev.callNext, Ev.callNext, Ev.callNext, Ev.bgFetch, Ev.bgInstall,
      Ev.callNext, Ev.callNext] = true ∧
    List.Pairwise (fun a b => a < b)
      (run (initRun 0 5 []) [Ev.callNext, Ev.callNext, Ev.callNext, Ev.callNext, Ev.bgFetch,
        Ev.bgInstall, Ev.callNext, Ev.callNext]).issued :=
  ⟨by decide, by decide,
    c2_monotonicity_amended 0 5 [] [Ev.callNext, Ev.callNext, Ev.callNext, Ev.callNext,
      Ev.bgFetch, Ev.bgInstall, Ev.callNext, Ev.callNext] (by decide) (by decide)⟩

theorem c1_uniqueness_witness :
    (run (initRun 0 5 [])
      [Ev.callNext, Ev.callNext, Ev.callNext, Ev.callNext, Ev.callNext,
       Ev.bgFetch, Ev.callNext, Ev.bgInstall,
       Ev.callNext, Ev.callNext, Ev.callNext, Ev.callNext, Ev.callNext]).issued.Nodup :=
  c1_uniqueness 0 5 []
    [Ev.callNext, Ev.callNext, Ev.callNext, Ev.callNext, Ev.callNext,
     Ev.bgFetch, Ev.callNext, Ev.bgInstall,
     Ev.callNext, Ev.callNext, Ev.callNext, Ev.callNext, Ev.callNext] (by norm_num)

end Leaf
